import Mathlib

/-!
Verification of the json library (src/json.h, src/json.cpp): a JSON value
model (`json::Node`), a recursive-descent parser (`Load`) and a
pretty-printing serializer (`Print`).

Modelling conventions:
* A character stream is a `List Char`; reading from an exhausted stream
  yields the sentinel character `(char)EOF = '\xFF'`, exactly as
  `istream::get`/`peek` return `EOF` which the C++ code stores into `char`.
* C++ `int` is modelled as `Int`; the stream extraction `>> int` clamps to
  the 32-bit range and stores 0 on failure (C++11 `num_get` semantics).
* C++ `double` is modelled as `ℚ` (exact rational arithmetic); the default
  `ostream` formatting of a double (`%g` with precision 6) is embedded
  exactly over `ℚ`.
* Parsing returns a `PResult`: `ok value rest`, `err msg` (a thrown
  `ParsingError`), or `hang` (the computation does not return: either the
  modelled loop runs forever on the real machine, or the step budget --
  fuel -- ran out).  The recursive-descent functions take a fuel argument
  because their recursion is on the shrinking input, not on an argument
  Lean can see decrease; a genuine non-terminating loop is `hang` at every
  fuel.
-/

namespace Json

/-! ## Character-stream primitives -/

/-- The sentinel produced by storing `EOF` (-1) into a `char`: byte 0xFF. -/
def eofChar : Char := '\xFF'

/-- `istream::peek` as seen through `char`: head of the stream, or the EOF
sentinel on an exhausted stream. -/
def peekC : List Char → Char
  | [] => eofChar
  | c :: _ => c

/-- `istream::get` as seen through `char`: consumes the head, or yields the
EOF sentinel (consuming nothing) on an exhausted stream. -/
def getC : List Char → Char × List Char
  | [] => (eofChar, [])
  | c :: r => (c, r)

/-- C `isspace` in the default locale: space, tab, newline, vertical tab,
form feed, carriage return.  (`isspace(EOF)` is false.) -/
def isSpaceC (c : Char) : Bool :=
  c = ' ' || c = '\t' || c = '\n' || c = '\x0B' || c = '\x0C' || c = '\r'

/-- C `isdigit` in the default locale.  (`isdigit(EOF)` is false.) -/
def isDigitC (c : Char) : Bool :=
  '0' ≤ c && c ≤ '9'

/-- C `isalpha` in the default locale.  (`isalpha(EOF)` is false.) -/
def isAlphaC (c : Char) : Bool :=
  ('a' ≤ c && c ≤ 'z') || ('A' ≤ c && c ≤ 'Z')

/-- C `tolower` in the default locale; the identity off `A`..`Z` (in
particular `tolower(EOF) = EOF`, modelled on the sentinel). -/
def toLowerC (c : Char) : Char :=
  if 'A' ≤ c && c ≤ 'Z' then Char.ofNat (c.toNat + 32) else c

/-- Numeric value of a digit string, most significant first. -/
def digitsVal (ds : List Char) : Nat :=
  ds.foldl (fun a c => a * 10 + (c.toNat - 48)) 0

/-! ## The value model: `json::Node`

`Node::Value = std::variant<nullptr_t, Array, Dict, bool, int, double,
std::string>`.  An `Array` is `std::vector<Node>`, ordered; a `Dict` is
`std::map<std::string, Node>`, i.e. an association list kept strictly
sorted by key (lexicographic byte order) with unique keys -- the sortedness
is the container invariant, maintained by `dictEmplace` below.  A string is
its character sequence. -/

inductive Node where
  | null
  | arr (elems : List Node)
  | dict (entries : List (List Char × Node))
  | bool (b : Bool)
  | int (i : Int)
  | double (d : ℚ)
  | str (s : List Char)

/-- `Node()` -- the default constructor: `std::variant` default-constructs
its first alternative, `nullptr_t`, so a default-constructed node is Null. -/
def nodeDefault : Node := Node.null

/-- `Node(nullptr)`. -/
def nodeOfNullptr : Node := Node.null

/-- `Node::IsNull`. -/
def Node.isNull : Node → Bool
  | .null => true
  | _ => false

/-- `Node::IsArray`. -/
def Node.isArray : Node → Bool
  | .arr _ => true
  | _ => false

/-- `Node::IsMap`. -/
def Node.isMap : Node → Bool
  | .dict _ => true
  | _ => false

/-- `Node::IsBool`. -/
def Node.isBool : Node → Bool
  | .bool _ => true
  | _ => false

/-- `Node::IsInt`. -/
def Node.isInt : Node → Bool
  | .int _ => true
  | _ => false

/-- `Node::IsPureDouble`: holds the `double` alternative. -/
def Node.isPureDouble : Node → Bool
  | .double _ => true
  | _ => false

/-- `Node::IsDouble`: holds `double` or `int`. -/
def Node.isDouble (n : Node) : Bool :=
  n.isPureDouble || n.isInt

/-- `Node::IsString`. -/
def Node.isString : Node → Bool
  | .str _ => true
  | _ => false

/-- The exact rational `n/1`, written so that its fields are literal
(kernel-transparent) -- the image of a C++ `int` widened to `double`,
which is exact for the 32-bit range. -/
def mkIntQ (n : Int) : ℚ := ⟨n, 1, one_ne_zero, Nat.coprime_one_right _⟩

/-- `Node::AsDouble`: an Integer is widened to floating point; otherwise
the value must hold the `double` alternative, else `logic_error` is
thrown (modelled as `Except.error`). -/
def Node.asDouble : Node → Except String ℚ
  | .int i => .ok (mkIntQ i)
  | .double d => .ok d
  | _ => .error "Not a double"

/-- `Node::AsInt`. -/
def Node.asInt : Node → Except String Int
  | .int i => .ok i
  | _ => .error "Not an int"

/-- `Node::AsBool`. -/
def Node.asBool : Node → Except String Bool
  | .bool b => .ok b
  | _ => .error "Not a bool"

/-- `Node::AsString`. -/
def Node.asString : Node → Except String (List Char)
  | .str s => .ok s
  | _ => .error "Not a string"

/-- `Node::AsArray`. -/
def Node.asArray : Node → Except String (List Node)
  | .arr a => .ok a
  | _ => .error "Not an array"

/-- `Node::AsMap`. -/
def Node.asMap : Node → Except String (List (List Char × Node))
  | .dict d => .ok d
  | _ => .error "Not a map"

/-- The `std::variant` alternative index of the active member, in
declaration order: nullptr_t 0, Array 1, Dict 2, bool 3, int 4, double 5,
string 6. -/
def variantTag : Node → Nat
  | .null => 0
  | .arr _ => 1
  | .dict _ => 2
  | .bool _ => 3
  | .int _ => 4
  | .double _ => 5
  | .str _ => 6

/-! ## `Node::operator==`

`value_ == rhs.value_` on `std::variant`: equal alternative indices and
equal payloads, where `std::vector`/`std::map` equality is element-wise,
recursing into children. -/

mutual

def nodeEq : Node → Node → Bool
  | .null, .null => true
  | .arr a, .arr b => arrEq a b
  | .dict a, .dict b => dictEq a b
  | .bool a, .bool b => a == b
  | .int a, .int b => a == b
  | .double a, .double b => a == b
  | .str a, .str b => a == b
  | _, _ => false

def arrEq : List Node → List Node → Bool
  | [], [] => true
  | a :: as, b :: bs => nodeEq a b && arrEq as bs
  | _, _ => false

def dictEq : List (List Char × Node) → List (List Char × Node) → Bool
  | [], [] => true
  | (k₁, v₁) :: as, (k₂, v₂) :: bs => k₁ == k₂ && nodeEq v₁ v₂ && dictEq as bs
  | _, _ => false

end

/-! ## `std::map<std::string, Node>`: key order and insertion -/

/-- `std::string operator<`: lexicographic comparison of the character
sequences (bytes compared as unsigned, here via `Char.toNat`). -/
def strLt : List Char → List Char → Bool
  | [], [] => false
  | [], _ :: _ => true
  | _ :: _, [] => false
  | a :: as, b :: bs => a.toNat < b.toNat || (a.toNat == b.toNat && strLt as bs)

/-- `std::map::emplace(key, value)`: insert at the sorted position if the
key is absent; if the key is already present the map is unchanged (emplace
does not overwrite). -/
def dictEmplace (k : List Char) (v : Node) : List (List Char × Node) → List (List Char × Node)
  | [] => [(k, v)]
  | (k₁, v₁) :: t =>
    if strLt k k₁ then (k, v) :: (k₁, v₁) :: t
    else if strLt k₁ k then (k₁, v₁) :: dictEmplace k v t
    else (k₁, v₁) :: t

/-- Building a `std::map` by a sequence of `emplace` calls. -/
def buildDict (l : List (List Char × Node)) : List (List Char × Node) :=
  l.foldl (fun d kv => dictEmplace kv.1 kv.2 d) []

/-- The map's iteration order over keys: the list of keys in stored order
(this is the order `PrintDict` walks). -/
def dictKeys (d : List (List Char × Node)) : List (List Char) :=
  d.map Prod.fst

/-- Strictly ascending adjacent keys: the `std::map` storage invariant. -/
def sortedKeysB : List (List Char × Node) → Bool
  | [] => true
  | [_] => true
  | a :: b :: t => strLt a.1 b.1 && sortedKeysB (b :: t)

/-! ## Stream numeric extraction (`istringstream >> int`, `>> double`)

C++11 `num_get` semantics: on conversion failure the target is set to 0;
an out-of-range integer is clamped to `INT_MAX`/`INT_MIN` (with failbit,
which `LoadNumber` never checks). -/

/-- `istringstream(num_str) >> int_value`: an optional `-`, then digits;
no digits is a failed extraction storing 0; out-of-range clamps to the
32-bit limits. -/
def readIntFromLexeme (s : List Char) : Int :=
  let p : Bool × List Char :=
    if peekC s = '-' then (true, (getC s).2) else (false, s)
  let ds := p.2.takeWhile isDigitC
  if ds = [] then 0
  else
    let v : Int := (digitsVal ds : Nat)
    let v := if p.1 then -v else v
    if v > 2147483647 then 2147483647
    else if v < -2147483648 then -2147483648
    else v

/-- The decimal value `mant * 10 ^ e` as an exact rational. -/
def decValue (mant : Int) (e : Int) : ℚ :=
  (mant : ℚ) * (10 : ℚ) ^ (e : ℤ)

/-- `istringstream(num_str) >> double_value`: the whole lexeme must form a
valid `strtod` number (nonempty mantissa digits; an exponent marker, if
present, followed by at least one digit); otherwise the extraction fails
and stores 0.0. -/
def readDoubleFromLexeme (s : List Char) : ℚ :=
  let p : Bool × List Char :=
    if peekC s = '-' then (true, (getC s).2) else (false, s)
  let ip := p.2.takeWhile isDigitC
  let t1 := p.2.dropWhile isDigitC
  let q : List Char × List Char :=
    if peekC t1 = '.' then ((getC t1).2.takeWhile isDigitC, (getC t1).2.dropWhile isDigitC)
    else ([], t1)
  let fp := q.1
  let t2 := if peekC t1 = '.' then q.2 else t1
  let r : Bool × Bool × List Char × List Char :=
    if t2 ≠ [] ∧ toLowerC (peekC t2) = 'e' then
      let u := (getC t2).2
      if peekC u = '-' then (true, true, (getC u).2.takeWhile isDigitC, (getC u).2.dropWhile isDigitC)
      else if peekC u = '+' then (true, false, (getC u).2.takeWhile isDigitC, (getC u).2.dropWhile isDigitC)
      else (true, false, u.takeWhile isDigitC, u.dropWhile isDigitC)
    else (false, false, [], t2)
  let hasExp := r.1
  let ed := r.2.2.1
  let tail := r.2.2.2
  if (ip ++ fp) ≠ [] ∧ (hasExp → ed ≠ []) ∧ tail = [] then
    let mant : Int := (digitsVal (ip ++ fp) : Nat)
    let mant := if p.1 then -mant else mant
    let e : Int := (if r.2.1 then -(digitsVal ed : Int) else (digitsVal ed : Int)) - fp.length
    decValue mant e
  else 0

/-! ## Default `ostream` formatting of `double` (`%g`, precision 6)

`operator<<(ostream, double)` with default flags prints like `printf
"%g"`: the value is rounded to 6 significant digits (ties to even); if the
decimal exponent `X` of the rounded value satisfies `-4 ≤ X < 6` the
number is printed in fixed notation, otherwise in scientific notation with
a sign and at least two exponent digits; trailing zeros (and a bare
decimal point) are removed.  Embedded here exactly over `ℚ`, using only
`Nat`/`Int` arithmetic on the numerator and denominator. -/

/-- Number of decimal digits of `n` (1 for 0), fuelled structurally. -/
def numDigitsAux : Nat → Nat → Nat
  | 0, _ => 1
  | f + 1, n => if n < 10 then 1 else 1 + numDigitsAux f (n / 10)

/-- Number of decimal digits of `n` (1 for 0). -/
def numDigits (n : Nat) : Nat := numDigitsAux n n

/-- Decimal digit characters of `n`, most significant first, fuelled. -/
def natCharsAux : Nat → Nat → List Char
  | 0, n => [Char.ofNat (48 + n % 10)]
  | f + 1, n =>
    if n < 10 then [Char.ofNat (48 + n)]
    else natCharsAux f (n / 10) ++ [Char.ofNat (48 + n % 10)]

/-- Decimal digit characters of `n`, most significant first. -/
def natChars (n : Nat) : List Char := natCharsAux n n

/-- `operator<<(ostream, int)`: minus sign for negatives, then decimal
digits. -/
def intToChars (i : Int) : List Char :=
  if i < 0 then '-' :: natChars (-i).toNat else natChars i.toNat

/-- Does `10^e ≤ n/den` hold?  (`n`, `den` positive.) -/
def le10 (e : Int) (n den : Nat) : Bool :=
  if 0 ≤ e then den * 10 ^ e.toNat ≤ n else den ≤ n * 10 ^ (-e).toNat

/-- The decimal exponent `X` of `n/den`: the unique `X` with
`10^X ≤ n/den < 10^(X+1)` (for positive `n`). -/
def decExp (n den : Nat) : Int :=
  let e0 : Int := (numDigits n : Int) - (numDigits den : Int)
  if le10 (e0 + 1) n den then e0 + 1
  else if le10 e0 n den then e0
  else e0 - 1

/-- Round `n/den` (with decimal exponent `X`) to 6 significant digits,
ties to even; returns the 6-digit mantissa in `[100000, 999999]` and the
(possibly incremented) exponent. -/
def round6 (n den : Nat) (X : Int) : Nat × Int :=
  let shift : Int := 5 - X
  let sn := if 0 ≤ shift then n * 10 ^ shift.toNat else n
  let sd := if 0 ≤ shift then den else den * 10 ^ (-shift).toNat
  let m0 := sn / sd
  let r := sn % sd
  let m := if 2 * r > sd then m0 + 1
           else if 2 * r < sd then m0
           else if m0 % 2 = 0 then m0 else m0 + 1
  if m = 1000000 then (100000, X + 1) else (m, X)

/-- Remove trailing `'0'` characters. -/
def stripZeros (l : List Char) : List Char :=
  (l.reverse.dropWhile (fun c => c = '0')).reverse

/-- `%g` fixed-notation rendering of a 6-digit mantissa at exponent `X`
(`-4 ≤ X < 6`), trailing zeros stripped. -/
def gFixed (digs : List Char) (X : Int) : List Char :=
  if 0 ≤ X then
    let ipart := digs.take (X.toNat + 1)
    let fpart := stripZeros (digs.drop (X.toNat + 1))
    ipart ++ (if fpart = [] then [] else '.' :: fpart)
  else
    '0' :: '.' :: List.replicate ((-X).toNat - 1) '0' ++ stripZeros digs

/-- `%g` scientific-notation rendering of a 6-digit mantissa at exponent
`X`, trailing zeros stripped, at least two exponent digits. -/
def gSci (digs : List Char) (X : Int) : List Char :=
  let rest := stripZeros digs.tail
  let mant := digs.take 1 ++ (if rest = [] then [] else '.' :: rest)
  let ed := natChars X.natAbs
  let ed := if ed.length < 2 then '0' :: ed else ed
  mant ++ 'e' :: (if X < 0 then '-' else '+') :: ed

/-- `output << value` for a `double`: default `ostream` formatting
(`%g`, precision 6). -/
def formatDouble (d : ℚ) : List Char :=
  if d.num = 0 then ['0']
  else
    let n := d.num.natAbs
    let den := d.den
    let X := decExp n den
    let p := round6 n den X
    let digs := natChars p.1
    let body := if -4 ≤ p.2 ∧ p.2 < 6 then gFixed digs p.2 else gSci digs p.2
    (if d.num < 0 then ['-'] else []) ++ body

/-- `floor(value) == value && abs(value) < 1e10`: the condition under
which `PrintNode` appends a literal `.0` after the default formatting.
(`floor d = d` iff the reduced denominator is 1.) -/
def doubleSuffixCond (d : ℚ) : Bool :=
  d.den = 1 && d.num.natAbs < 10000000000 * d.den

/-- The complete printed token of a `double`: default formatting plus the
`.0` suffix for integral values of magnitude below 1e10. -/
def printedDoubleToken (d : ℚ) : List Char :=
  formatDouble d ++ (if doubleSuffixCond d then ['.', '0'] else [])

/-! ## The parser (`json.cpp`, anonymous namespace) -/

/-- Result of a parsing computation: a value with the unconsumed stream, a
thrown `ParsingError`, or a computation that does not return (`hang`:
either a genuinely infinite loop of the C++ code, or exhausted fuel). -/
inductive PResult (α : Type) where
  | ok (val : α) (rest : List Char)
  | err (msg : String)
  | hang

/-- `SkipWhitespace`: `while (isspace(input.peek())) input.get();`. -/
def skipWhitespace (input : List Char) : List Char :=
  input.dropWhile isSpaceC

/-- The loop body of `LoadStringToken`, carrying the escape flag and the
accumulated `line`.  On an exhausted stream `input.get()` yields the EOF
sentinel `'\xFF'` forever: in escape mode the `switch` default throws
("Invalid escape sequence"); otherwise the sentinel matches no case, is
appended to `line`, and the loop repeats with the stream still exhausted
-- a genuine infinite loop, `hang`. -/
def lstGo : List Char → Bool → List Char → PResult (List Char)
  | [], escape, _ => if escape then .err "Invalid escape sequence" else .hang
  | c :: rest, escape, line =>
    if c = '\\' && !escape then lstGo rest true line
    else if c = '"' && !escape then .ok line rest
    else if escape then
      if c = 'n' then lstGo rest false (line ++ ['\n'])
      else if c = 'r' then lstGo rest false (line ++ ['\r'])
      else if c = 't' then lstGo rest false (line ++ ['\t'])
      else if c = '"' then lstGo rest false (line ++ ['"'])
      else if c = '\\' then lstGo rest false (line ++ ['\\'])
      else .err "Invalid escape sequence"
    else lstGo rest escape (line ++ [c])

/-- `LoadStringToken`: scan the body of a string literal (the opening
quote already consumed) up to an unescaped closing quote. -/
def loadStringToken (input : List Char) : PResult (List Char) :=
  lstGo input false []

/-- `LoadString`: consume the opening quote, then the string body. -/
def loadString (input : List Char) : PResult Node :=
  let p := getC input
  if p.1 ≠ '"' then .err "String should start with \""
  else
    match loadStringToken p.2 with
    | .ok s rest => .ok (.str s) rest
    | .err m => .err m
    | .hang => .hang

/-- `LoadNumber`: greedily scan an optional `-`, digits, an optional `.`
with digits (marking floating), an optional exponent with sign and digits
(marking floating); convert the accumulated lexeme with `istringstream`.
Never throws. -/
def loadNumber (input : List Char) : Node × List Char :=
  let sp : List Char × List Char :=
    if peekC input = '-' then (['-'], (getC input).2) else ([], input)
  let ds := sp.2.takeWhile isDigitC
  let r2 := sp.2.dropWhile isDigitC
  let fr : List Char × Bool × List Char :=
    if peekC r2 = '.' then
      ('.' :: (getC r2).2.takeWhile isDigitC, true, (getC r2).2.dropWhile isDigitC)
    else ([], false, r2)
  let r3 := fr.2.2
  let ex : List Char × Bool × List Char :=
    if toLowerC (peekC r3) = 'e' then
      let t := (getC r3).2
      let sg : List Char × List Char :=
        if peekC t = '+' || peekC t = '-' then ([peekC t], (getC t).2) else ([], t)
      (peekC r3 :: sg.1 ++ sg.2.takeWhile isDigitC, true, sg.2.dropWhile isDigitC)
    else ([], false, r3)
  let numStr := sp.1 ++ ds ++ fr.1 ++ ex.1
  if fr.2.1 || ex.2.1 then (.double (readDoubleFromLexeme numStr), ex.2.2)
  else (.int (readIntFromLexeme numStr), ex.2.2)

/-- `LoadBoolOrNull`: consume consecutive alphabetic characters and map
`true`/`false`/`null`; any other token throws. -/
def loadBoolOrNull (input : List Char) : PResult Node :=
  let token := input.takeWhile isAlphaC
  let rest := input.dropWhile isAlphaC
  if token = "true".toList then .ok (.bool true) rest
  else if token = "false".toList then .ok (.bool false) rest
  else if token = "null".toList then .ok (.null) rest
  else .err ("Unknown token: " ++ String.mk token)

mutual

/-- `LoadNode`: skip whitespace, dispatch on one character of lookahead. -/
def loadNode : Nat → List Char → PResult Node
  | 0, _ => .hang
  | f + 1, input =>
    let s := skipWhitespace input
    let c := peekC s
    if c = '[' then loadArray f s
    else if c = '\x7b' then loadDict f s
    else if c = '"' then loadString s
    else if isDigitC c || c = '-' then
      let p := loadNumber s
      .ok p.1 p.2
    else if isAlphaC c then loadBoolOrNull s
    else .err ("Unexpected character: " ++ String.mk [c])

/-- `LoadArray`: consume `[`; empty-array shortcut on immediate `]`;
otherwise the element loop. -/
def loadArray : Nat → List Char → PResult Node
  | 0, _ => .hang
  | f + 1, input =>
    let p := getC input
    if p.1 ≠ '[' then .err "Array should start with ["
    else
      let r := skipWhitespace p.2
      if peekC r = ']' then .ok (.arr []) (getC r).2
      else loadArrayItems f r []

/-- The `while (true)` loop of `LoadArray`: skip whitespace, parse one
element, skip whitespace, consume a separator (`]` terminates, `,`
continues, anything else throws). -/
def loadArrayItems : Nat → List Char → List Node → PResult Node
  | 0, _, _ => .hang
  | f + 1, input, acc =>
    let s := skipWhitespace input
    match loadNode f s with
    | .ok v r =>
      let r2 := skipWhitespace r
      let p := getC r2
      if p.1 = ']' then .ok (.arr (acc ++ [v])) p.2
      else if p.1 = ',' then loadArrayItems f p.2 (acc ++ [v])
      else .err "Expected ',' or ']' in array"
    | .err m => .err m
    | .hang => .hang

/-- `LoadDict`: consume `{`; empty-object shortcut on immediate `}`;
otherwise the member loop. -/
def loadDict : Nat → List Char → PResult Node
  | 0, _ => .hang
  | f + 1, input =>
    let p := getC input
    if p.1 ≠ '\x7b' then .err "Dict should start with \x7b"
    else
      let r := skipWhitespace p.2
      if peekC r = '\x7d' then .ok (.dict []) (getC r).2
      else loadDictItems f r []

/-- The `while (true)` loop of `LoadDict`: skip whitespace, require a
quoted key, skip whitespace, require `:`, skip whitespace, parse the
value, `emplace` it, skip whitespace, consume a separator. -/
def loadDictItems : Nat → List Char → List (List Char × Node) → PResult Node
  | 0, _, _ => .hang
  | f + 1, input, acc =>
    let s := skipWhitespace input
    let p := getC s
    if p.1 ≠ '"' then .err "Dict key should start with \""
    else
      match loadStringToken p.2 with
      | .ok key r2 =>
        let r3 := skipWhitespace r2
        let q := getC r3
        if q.1 ≠ ':' then .err "Expected ':' after dict key"
        else
          let r5 := skipWhitespace q.2
          match loadNode f r5 with
          | .ok v r6 =>
            let acc2 := dictEmplace key v acc
            let r7 := skipWhitespace r6
            let w := getC r7
            if w.1 = '\x7d' then .ok (.dict acc2) w.2
            else if w.1 = ',' then loadDictItems f w.2 acc2
            else .err "Expected ',' or '\x7d' in dict"
          | .err m => .err m
          | .hang => .hang
      | .err m => .err m
      | .hang => .hang

end

/-! ## The printer (`PrintNode` and helpers) -/

/-- `PrintString`: quote, escape `\n`, `\r`, `\t`, `"`, `\` back to their
two-character forms, all other characters verbatim, quote. -/
def escChar (c : Char) : List Char :=
  if c = '\n' then ['\\', 'n']
  else if c = '\r' then ['\\', 'r']
  else if c = '\t' then ['\\', 't']
  else if c = '"' then ['\\', '"']
  else if c = '\\' then ['\\', '\\']
  else [c]

/-- `PrintString`, the whole quoted rendering. -/
def printString (s : List Char) : List Char :=
  '"' :: s.flatMap escChar ++ ['"']

/-- `std::string(n, ' ')`: the indentation run. -/
def spaces (n : Nat) : List Char := List.replicate n ' '

mutual

/-- `PrintNode`: dispatch on the active variant; scalars by their literal
forms, `double` by default formatting plus the `.0` rule, collections by
the indented multi-line forms. -/
def printNode : Node → Nat → List Char
  | .null, _ => "null".toList
  | .bool b, _ => if b then "true".toList else "false".toList
  | .int i, _ => intToChars i
  | .double d, _ => printedDoubleToken d
  | .str s, _ => printString s
  | .arr l, indent =>
    '[' :: printArrItems l indent true
      ++ (if l.isEmpty then [] else '\n' :: spaces indent) ++ [']']
  | .dict l, indent =>
    '\x7b' :: printDictItems l indent true
      ++ (if l.isEmpty then [] else '\n' :: spaces indent) ++ ['\x7d']

/-- The element loop of `PrintArray`: a comma before every element but the
first, then newline, indentation at depth+2, and the element itself. -/
def printArrItems : List Node → Nat → Bool → List Char
  | [], _, _ => []
  | v :: t, indent, first =>
    (if first then [] else [','])
      ++ '\n' :: (spaces (indent + 2) ++ (printNode v (indent + 2) ++ printArrItems t indent false))

/-- The member loop of `PrintDict`: like the array loop but each entry is
`"key": value`. -/
def printDictItems : List (List Char × Node) → Nat → Bool → List Char
  | [], _, _ => []
  | (k, v) :: t, indent, first =>
    (if first then [] else [','])
      ++ '\n' :: (spaces (indent + 2)
        ++ (printString k ++ (':' :: ' ' :: (printNode v (indent + 2) ++ printDictItems t indent false))))

end

/-- `PrintArray` as an entry point: the array case of `PrintNode`. -/
def printArray (array : List Node) (indent : Nat) : List Char :=
  printNode (.arr array) indent

/-- `PrintDict` as an entry point: the dict case of `PrintNode`. -/
def printDict (dict : List (List Char × Node)) (indent : Nat) : List Char :=
  printNode (.dict dict) indent

/-! ## `Document`, `Load`, `Print` -/

/-- `json::Document`: wraps exactly one root node. -/
structure Document where
  root : Node

/-- `Document::GetRoot`. -/
def Document.getRoot (d : Document) : Node := d.root

/-- `json::Load`: `Document{LoadNode(input)}` -- parses one value and does
not validate trailing content. -/
def load (fuel : Nat) (input : List Char) : PResult Document :=
  match loadNode fuel input with
  | .ok n rest => .ok (Document.mk n) rest
  | .err m => .err m
  | .hang => .hang

/-- `json::Print`: `PrintNode(doc.GetRoot(), output)` at indent 0. -/
def printDocument (doc : Document) : List Char :=
  printNode doc.getRoot 0

/-! ## Side conditions for the round-trip theorem -/

/-- Shape of a fixed-notation floating token: optional `-`, at least one
integer digit, a decimal point, then only digits.  (A token of this shape
is scanned in one piece by `LoadNumber` and marked floating.) -/
def fixedShape (tok : List Char) : Bool :=
  let t := if peekC tok = '-' then (getC tok).2 else tok
  let a := t.takeWhile isDigitC
  let r := t.dropWhile isDigitC
  if peekC r = '.' ∧ r ≠ [] then !a.isEmpty && ((getC r).2.all isDigitC)
  else false

/-- Does the lexeme `s` denote exactly the rational `d`?  Decided by
cross multiplication over `Int`, never building a new `ℚ`. -/
def lexMatchesQ (s : List Char) (d : ℚ) : Bool :=
  let p : Bool × List Char :=
    if peekC s = '-' then (true, (getC s).2) else (false, s)
  let ip := p.2.takeWhile isDigitC
  let t1 := p.2.dropWhile isDigitC
  let q : List Char × List Char :=
    if peekC t1 = '.' then ((getC t1).2.takeWhile isDigitC, (getC t1).2.dropWhile isDigitC)
    else ([], t1)
  let fp := q.1
  let t2 := if peekC t1 = '.' then q.2 else t1
  if (ip ++ fp) ≠ [] ∧ t2 = [] then
    let mant : Int := (digitsVal (ip ++ fp) : Nat)
    let mant := if p.1 then -mant else mant
    d.num * (10 ^ fp.length : Nat) = mant * (d.den : Int)
  else false

/-- A `double` that survives the print/parse round trip inside any
context: its printed token is in fixed notation and denotes exactly the
stored rational.  (Integral doubles of magnitude below 1e6 qualify;
integral doubles in `[1e6, 1e10)` do not -- they print in scientific
notation and then receive the `.0` suffix.) -/
def goodDouble (d : ℚ) : Bool :=
  fixedShape (printedDoubleToken d) && lexMatchesQ (printedDoubleToken d) d

mutual

/-- A tree as a C++ program can build it, restricted to what re-parses
exactly: `int` payloads in the 32-bit range (every C++ `int` is), `dict`
entry lists strictly key-sorted (the `std::map` invariant guarantees
this), and every `double` printing as a fixed-notation token denoting
itself. -/
def goodNode : Node → Bool
  | .null => true
  | .bool _ => true
  | .str _ => true
  | .int i => decide (-2147483648 ≤ i ∧ i ≤ 2147483647)
  | .double d => goodDouble d
  | .arr l => goodList l
  | .dict l => sortedKeysB l && goodEntries l

def goodList : List Node → Bool
  | [] => true
  | v :: t => goodNode v && goodList t

def goodEntries : List (List Char × Node) → Bool
  | [] => true
  | (_, v) :: t => goodNode v && goodEntries t

end

mutual

/-- Enough fuel to parse the printed form of a node. -/
def fuelNode : Node → Nat
  | .arr l => 2 + fuelList l
  | .dict l => 2 + fuelEntries l
  | _ => 1

def fuelList : List Node → Nat
  | [] => 0
  | v :: t => 1 + fuelNode v + fuelList t

def fuelEntries : List (List Char × Node) → Nat
  | [] => 0
  | (_, v) :: t => 1 + fuelNode v + fuelEntries t

end

/-- A character that can legally follow a complete numeric or literal
token in printed output: the separator comma, the newline the printer
emits before closing brackets, or end of input.  None of these continues
a number, a literal, or whitespace-sensitive scanning of a token. -/
def goodSep (c : Char) : Bool :=
  c = ',' || c = '\n' || c = eofChar

/-- The characters on which `LoadNode` dispatches to some scanner rather
than throwing: `[`, `{`, `"`, a digit, `-`, or an alphabetic character. -/
def startChar (c : Char) : Bool :=
  c = '[' || c = '\x7b' || c = '"' || isDigitC c || c = '-' || isAlphaC c

/-! # Theorems

First a library of lemmas about the scanning primitives, then the claims. -/

theorem peekC_cons (c : Char) (t : List Char) : peekC (c :: t) = c := rfl

theorem takeWhile_append_all {p : Char → Bool} {xs ys : List Char}
    (h1 : ∀ c ∈ xs, p c = true) (h2 : p (peekC ys) = false) :
    (xs ++ ys).takeWhile p = xs := by
  induction xs with
  | nil =>
    cases ys with
    | nil => rfl
    | cons y t => simp only [List.nil_append, List.takeWhile_cons, peekC_cons] at h2 ⊢; simp [h2]
  | cons x xs ih =>
    simp only [List.cons_append, List.takeWhile_cons, h1 x (by simp)]
    simp [ih (fun c hc => h1 c (by simp [hc]))]

theorem dropWhile_append_all {p : Char → Bool} {xs ys : List Char}
    (h1 : ∀ c ∈ xs, p c = true) (h2 : p (peekC ys) = false) :
    (xs ++ ys).dropWhile p = ys := by
  induction xs with
  | nil =>
    cases ys with
    | nil => rfl
    | cons y t => simp only [List.nil_append, List.dropWhile_cons, peekC_cons] at h2 ⊢; simp [h2]
  | cons x xs ih =>
    simp only [List.cons_append, List.dropWhile_cons, h1 x (by simp)]
    simp [ih (fun c hc => h1 c (by simp [hc]))]

theorem takeWhile_not_head {p : Char → Bool} {ys : List Char}
    (h : p (peekC ys) = false) : ys.takeWhile p = [] := by
  cases ys with
  | nil => rfl
  | cons y t => simp only [List.takeWhile_cons, peekC_cons] at h ⊢; simp [h]

theorem dropWhile_not_head {p : Char → Bool} {ys : List Char}
    (h : p (peekC ys) = false) : ys.dropWhile p = ys := by
  cases ys with
  | nil => rfl
  | cons y t => simp only [List.dropWhile_cons, peekC_cons] at h ⊢; simp [h]

theorem skipWhitespace_append {ws x : List Char} (h : ∀ c ∈ ws, isSpaceC c = true) :
    skipWhitespace (ws ++ x) = skipWhitespace x := by
  induction ws with
  | nil => simp
  | cons w t ih =>
    simp only [skipWhitespace, List.cons_append, List.dropWhile_cons, h w (by simp)]
    exact ih (fun c hc => h c (by simp [hc]))

theorem skipWhitespace_eq_self {x : List Char} (h : isSpaceC (peekC x) = false) :
    skipWhitespace x = x :=
  dropWhile_not_head h

theorem skipWhitespace_spaces_append (k : Nat) (x : List Char) :
    skipWhitespace ('\n' :: spaces k ++ x) = skipWhitespace x := by
  have : skipWhitespace (('\n' :: spaces k) ++ x) = skipWhitespace x := by
    refine skipWhitespace_append ?_
    intro c hc
    rcases List.mem_cons.mp hc with h | h
    · subst h; decide
    · rw [List.eq_of_mem_replicate h]; decide
  simpa using this

/-! ## Character classification helpers -/

theorem ne_of_digit_of_not {c d : Char} (h : isDigitC c = true)
    (hd : isDigitC d = false) : c ≠ d := by
  intro e; rw [e, hd] at h; exact Bool.false_ne_true h

theorem isSpaceC_eq_false_of {c : Char} (h1 : c ≠ ' ') (h2 : c ≠ '\t') (h3 : c ≠ '\n')
    (h4 : c ≠ '\x0B') (h5 : c ≠ '\x0C') (h6 : c ≠ '\r') : isSpaceC c = false := by
  simp [isSpaceC, h1, h2, h3, h4, h5, h6]

theorem isSpaceC_of_digit {c : Char} (h : isDigitC c = true) : isSpaceC c = false :=
  isSpaceC_eq_false_of
    (ne_of_digit_of_not h (by decide)) (ne_of_digit_of_not h (by decide))
    (ne_of_digit_of_not h (by decide)) (ne_of_digit_of_not h (by decide))
    (ne_of_digit_of_not h (by decide)) (ne_of_digit_of_not h (by decide))

/-! ## Decimal digit strings -/

theorem natCharsAux_fuel : ∀ n f g, n ≤ f → n ≤ g → natCharsAux f n = natCharsAux g n := by
  intro n
  induction n using Nat.strong_induction_on with
  | _ n ih =>
    intro f g hf hg
    match f, g with
    | 0, 0 => rfl
    | 0, g + 1 =>
      have : n = 0 := Nat.le_zero.mp hf
      subst this; simp [natCharsAux]
    | f + 1, 0 =>
      have : n = 0 := Nat.le_zero.mp hg
      subst this; simp [natCharsAux]
    | f + 1, g + 1 =>
      simp only [natCharsAux]
      by_cases h : n < 10
      · simp [h]
      · simp only [h, if_false]
        have hlt : n / 10 < n := Nat.div_lt_self (by omega) (by omega)
        rw [ih (n / 10) hlt f g (by omega) (by omega)]

theorem natChars_lt10 {n : Nat} (h : n < 10) : natChars n = [Char.ofNat (48 + n)] := by
  cases n with
  | zero => simp [natChars, natCharsAux]
  | succ k => simp [natChars, natCharsAux, h]

theorem natChars_ge10 {n : Nat} (h : 10 ≤ n) :
    natChars n = natChars (n / 10) ++ [Char.ofNat (48 + n % 10)] := by
  obtain ⟨k, rfl⟩ : ∃ k, n = k + 1 := Nat.exists_eq_succ_of_ne_zero (by omega)
  simp only [natChars, natCharsAux, Nat.not_lt.mpr h, if_false]
  rw [natCharsAux_fuel ((k + 1) / 10) k ((k + 1) / 10)
    (by omega) (le_refl _)]

theorem digit_char_isDigit {d : Nat} (h : d < 10) : isDigitC (Char.ofNat (48 + d)) = true := by
  interval_cases d <;> decide

theorem digit_char_toNat {d : Nat} (h : d < 10) : (Char.ofNat (48 + d)).toNat = 48 + d := by
  interval_cases d <;> decide

theorem natChars_all_digits : ∀ n, ∀ c ∈ natChars n, isDigitC c = true := by
  intro n
  induction n using Nat.strong_induction_on with
  | _ n ih =>
    by_cases h : n < 10
    · rw [natChars_lt10 h]
      intro c hc
      simp only [List.mem_singleton] at hc
      subst hc; exact digit_char_isDigit h
    · rw [natChars_ge10 (by omega)]
      intro c hc
      rcases List.mem_append.mp hc with h1 | h1
      · exact ih (n / 10) (Nat.div_lt_self (by omega) (by omega)) c h1
      · simp only [List.mem_singleton] at h1
        subst h1; exact digit_char_isDigit (Nat.mod_lt _ (by omega))

theorem natChars_ne_nil (n : Nat) : natChars n ≠ [] := by
  by_cases h : n < 10
  · rw [natChars_lt10 h]; simp
  · rw [natChars_ge10 (by omega)]; simp

theorem digitsVal_go : ∀ (b : List Char) (i : Nat),
    b.foldl (fun a c => a * 10 + (c.toNat - 48)) i = i * 10 ^ b.length + digitsVal b := by
  intro b
  induction b with
  | nil => intro i; simp [digitsVal]
  | cons c t ih =>
    intro i
    rw [List.foldl_cons, ih]
    have e2 : digitsVal (c :: t) = (c.toNat - 48) * 10 ^ t.length + digitsVal t := by
      simp only [digitsVal, List.foldl_cons]
      rw [ih]
      simp [digitsVal]
    rw [e2]
    simp only [List.length_cons, pow_succ]
    ring

theorem digitsVal_append (a b : List Char) :
    digitsVal (a ++ b) = digitsVal a * 10 ^ b.length + digitsVal b := by
  simp only [digitsVal, List.foldl_append]
  rw [digitsVal_go b (List.foldl (fun a c => a * 10 + (c.toNat - 48)) 0 a)]
  rfl

theorem digitsVal_natChars : ∀ n, digitsVal (natChars n) = n := by
  intro n
  induction n using Nat.strong_induction_on with
  | _ n ih =>
    by_cases h : n < 10
    · rw [natChars_lt10 h]
      simp [digitsVal, digit_char_toNat h]
    · rw [natChars_ge10 (by omega), digitsVal_append,
        ih (n / 10) (Nat.div_lt_self (by omega) (by omega))]
      simp only [List.length_singleton, pow_one, digitsVal, List.foldl_cons, List.foldl_nil]
      rw [digit_char_toNat (Nat.mod_lt _ (by omega))]
      omega

/-! ## Separator characters after a token -/

theorem goodSep_cases {c : Char} (h : goodSep c = true) :
    c = ',' ∨ c = '\n' ∨ c = eofChar := by
  simp only [goodSep, Bool.or_eq_true, decide_eq_true_eq] at h
  tauto

theorem goodSep_not_digit {c : Char} (h : goodSep c = true) : isDigitC c = false := by
  rcases goodSep_cases h with h | h | h <;> subst h <;> decide

theorem goodSep_ne_dot {c : Char} (h : goodSep c = true) : c ≠ '.' := by
  rcases goodSep_cases h with h | h | h <;> subst h <;> decide

theorem goodSep_not_e {c : Char} (h : goodSep c = true) : toLowerC c ≠ 'e' := by
  rcases goodSep_cases h with h | h | h <;> subst h <;> decide

theorem goodSep_ne_minus {c : Char} (h : goodSep c = true) : c ≠ '-' := by
  rcases goodSep_cases h with h | h | h <;> subst h <;> decide

theorem goodSep_not_alpha {c : Char} (h : goodSep c = true) : isAlphaC c = false := by
  rcases goodSep_cases h with h | h | h <;> subst h <;> decide

/-! ## `LoadNumber` on integer tokens -/

theorem peekC_append_cons (c : Char) (t rest : List Char) :
    peekC ((c :: t) ++ rest) = c := rfl

theorem readInt_digits {ds : List Char} (hne : ds ≠ [])
    (hdig : ∀ c ∈ ds, isDigitC c = true) (hle : digitsVal ds ≤ 2147483647) :
    readIntFromLexeme ds = (digitsVal ds : Int) := by
  obtain ⟨c, t, rfl⟩ : ∃ c t, ds = c :: t := by
    cases ds with
    | nil => exact absurd rfl hne
    | cons c t => exact ⟨c, t, rfl⟩
  have hc : isDigitC c = true := hdig c (by simp)
  have hm : peekC (c :: t) ≠ '-' := by
    rw [peekC_cons]; exact ne_of_digit_of_not hc (by decide)
  have htake : (c :: t).takeWhile isDigitC = c :: t := by
    have := @takeWhile_append_all isDigitC (c :: t) [] hdig (by decide)
    simpa using this
  simp only [readIntFromLexeme, if_neg hm, htake]
  rw [if_neg (by simp)]
  have h1 : ¬((digitsVal (c :: t) : Int) > 2147483647) := by omega
  have h2 : ¬((digitsVal (c :: t) : Int) < -2147483648) := by omega
  simp [h1, h2]

theorem readInt_neg_digits {ds : List Char} (hne : ds ≠ [])
    (hdig : ∀ c ∈ ds, isDigitC c = true) (hle : digitsVal ds ≤ 2147483648) :
    readIntFromLexeme ('-' :: ds) = -(digitsVal ds : Int) := by
  have htake : ds.takeWhile isDigitC = ds := by
    have := @takeWhile_append_all isDigitC ds [] hdig (by decide)
    simpa using this
  have h1 : ¬((-(digitsVal ds : Int)) > 2147483647) := by omega
  have h2 : ¬((-(digitsVal ds : Int)) < -2147483648) := by omega
  simp [readIntFromLexeme, peekC_cons, getC, htake, hne, h1, h2]

theorem loadNumber_digitToken {ds rest : List Char} (hne : ds ≠ [])
    (hdig : ∀ c ∈ ds, isDigitC c = true) (hrest : goodSep (peekC rest) = true) :
    loadNumber (ds ++ rest) = (.int (readIntFromLexeme ds), rest) := by
  obtain ⟨c, t, rfl⟩ : ∃ c t, ds = c :: t := by
    cases ds with
    | nil => exact absurd rfl hne
    | cons c t => exact ⟨c, t, rfl⟩
  have hc : isDigitC c = true := hdig c (by simp)
  have hmc : ¬(c = '-') := ne_of_digit_of_not hc (by decide)
  have htake : List.takeWhile isDigitC (c :: (t ++ rest)) = c :: t := by
    simpa using @takeWhile_append_all _ (c :: t) rest hdig (goodSep_not_digit hrest)
  have hdrop : List.dropWhile isDigitC (c :: (t ++ rest)) = rest := by
    simpa using @dropWhile_append_all _ (c :: t) rest hdig (goodSep_not_digit hrest)
  simp [loadNumber, peekC_cons, hmc, htake, hdrop, goodSep_ne_dot hrest, goodSep_not_e hrest]

theorem loadNumber_negDigitToken {ds rest : List Char} (_hne : ds ≠ [])
    (hdig : ∀ c ∈ ds, isDigitC c = true) (hrest : goodSep (peekC rest) = true) :
    loadNumber (('-' :: ds) ++ rest) = (.int (readIntFromLexeme ('-' :: ds)), rest) := by
  have htake : (ds ++ rest).takeWhile isDigitC = ds :=
    takeWhile_append_all hdig (goodSep_not_digit hrest)
  have hdrop : (ds ++ rest).dropWhile isDigitC = rest :=
    dropWhile_append_all hdig (goodSep_not_digit hrest)
  simp [loadNumber, List.cons_append, peekC_cons, getC, htake, hdrop,
    goodSep_ne_dot hrest, goodSep_not_e hrest]

theorem loadNumber_int {i : Int} {rest : List Char}
    (hlo : -2147483648 ≤ i) (hhi : i ≤ 2147483647) (hrest : goodSep (peekC rest) = true) :
    loadNumber (intToChars i ++ rest) = (.int i, rest) := by
  by_cases hneg : i < 0
  · have : intToChars i = '-' :: natChars (-i).toNat := by simp [intToChars, hneg]
    rw [this, loadNumber_negDigitToken (natChars_ne_nil _) (natChars_all_digits _) hrest]
    rw [readInt_neg_digits (natChars_ne_nil _) (natChars_all_digits _)
      (by rw [digitsVal_natChars]; omega)]
    rw [digitsVal_natChars]
    congr 1
    congr 1
    omega
  · have : intToChars i = natChars i.toNat := by simp [intToChars, hneg]
    rw [this, loadNumber_digitToken (natChars_ne_nil _) (natChars_all_digits _) hrest]
    rw [readInt_digits (natChars_ne_nil _) (natChars_all_digits _)
      (by rw [digitsVal_natChars]; omega)]
    rw [digitsVal_natChars]
    congr 2
    omega

/-! ## `LoadNumber` on fixed-notation floating tokens -/

theorem eq_cons_of_peek {r : List Char} {c : Char} (hne : r ≠ []) (hd : peekC r = c) :
    r = c :: (getC r).2 := by
  cases r with
  | nil => exact absurd rfl hne
  | cons x t => rw [peekC_cons] at hd; rw [hd]; rfl

theorem ne_nil_of_isEmpty_eq_false {α : Type} {l : List α} (h : l.isEmpty = false) :
    l ≠ [] := by
  cases l <;> simp_all

theorem fixedShape_parts {tk : List Char} (h : (!(tk.takeWhile isDigitC).isEmpty &&
      ((getC (tk.dropWhile isDigitC)).2.all isDigitC)) = true)
    (hdot : peekC (tk.dropWhile isDigitC) = '.' ∧ tk.dropWhile isDigitC ≠ []) :
    ∃ (ds1 ds2 : List Char), tk = ds1 ++ '.' :: ds2 ∧
      ds1 ≠ [] ∧ (∀ c ∈ ds1, isDigitC c = true) ∧ (∀ c ∈ ds2, isDigitC c = true) := by
  have hru := eq_cons_of_peek hdot.2 hdot.1
  simp only [Bool.and_eq_true, Bool.not_eq_true'] at h
  refine ⟨tk.takeWhile isDigitC, (getC (tk.dropWhile isDigitC)).2, ?_,
    ne_nil_of_isEmpty_eq_false h.1, ?_, ?_⟩
  · conv_lhs => rw [← List.takeWhile_append_dropWhile (p := isDigitC) (l := tk)]
    exact congrArg (fun x => tk.takeWhile isDigitC ++ x) hru
  · intro c hc
    exact List.mem_takeWhile_imp hc
  · intro c hc
    exact (List.all_eq_true.mp h.2) c hc

theorem fixedShape_unpack {tok : List Char} (h : fixedShape tok = true) :
    ∃ (sgn ds1 ds2 : List Char), (sgn = [] ∨ sgn = ['-']) ∧ tok = sgn ++ ds1 ++ '.' :: ds2 ∧
      ds1 ≠ [] ∧ (∀ c ∈ ds1, isDigitC c = true) ∧ (∀ c ∈ ds2, isDigitC c = true) := by
  simp only [fixedShape] at h
  by_cases hm : peekC tok = '-'
  · obtain ⟨tk, rfl⟩ : ∃ tk, tok = '-' :: tk := by
      cases tok with
      | nil => exact absurd hm (by decide)
      | cons c tk =>
        rw [peekC_cons] at hm
        exact ⟨tk, by rw [hm]⟩
    rw [if_pos hm] at h
    simp only [getC] at h
    by_cases hdot : peekC (tk.dropWhile isDigitC) = '.' ∧ tk.dropWhile isDigitC ≠ []
    · rw [if_pos hdot] at h
      obtain ⟨ds1, ds2, htk, hne, hd1, hd2⟩ := fixedShape_parts h hdot
      exact ⟨['-'], ds1, ds2, Or.inr rfl, by rw [htk]; rfl, hne, hd1, hd2⟩
    · rw [if_neg hdot] at h
      exact absurd h (by simp)
  · rw [if_neg hm] at h
    by_cases hdot : peekC (tok.dropWhile isDigitC) = '.' ∧ tok.dropWhile isDigitC ≠ []
    · rw [if_pos hdot] at h
      obtain ⟨ds1, ds2, htk, hne, hd1, hd2⟩ := fixedShape_parts h hdot
      exact ⟨[], ds1, ds2, Or.inl rfl, by rw [htk]; rfl, hne, hd1, hd2⟩
    · rw [if_neg hdot] at h
      exact absurd h (by simp)

theorem loadNumber_fixedToken {ds1 ds2 rest : List Char} {sgn : List Char}
    (hsgn : sgn = [] ∨ sgn = ['-']) (h1 : ds1 ≠ [])
    (hd1 : ∀ c ∈ ds1, isDigitC c = true) (hd2 : ∀ c ∈ ds2, isDigitC c = true)
    (hrest : goodSep (peekC rest) = true) :
    loadNumber ((sgn ++ ds1 ++ '.' :: ds2) ++ rest) =
      (.double (readDoubleFromLexeme (sgn ++ ds1 ++ '.' :: ds2)), rest) := by
  obtain ⟨c, t, rfl⟩ : ∃ c t, ds1 = c :: t := by
    cases ds1 with
    | nil => exact absurd rfl h1
    | cons c t => exact ⟨c, t, rfl⟩
  have hc : isDigitC c = true := hd1 c (by simp)
  have hmc : ¬(c = '-') := ne_of_digit_of_not hc (by decide)
  have htake1 : List.takeWhile isDigitC (c :: (t ++ '.' :: (ds2 ++ rest))) = c :: t := by
    simpa using @takeWhile_append_all _ (c :: t) ('.' :: (ds2 ++ rest)) hd1
      (by rw [peekC_cons]; decide)
  have hdrop1 : List.dropWhile isDigitC (c :: (t ++ '.' :: (ds2 ++ rest))) =
      '.' :: (ds2 ++ rest) := by
    simpa using @dropWhile_append_all _ (c :: t) ('.' :: (ds2 ++ rest)) hd1
      (by rw [peekC_cons]; decide)
  have htake2 : List.takeWhile isDigitC (ds2 ++ rest) = ds2 :=
    takeWhile_append_all hd2 (goodSep_not_digit hrest)
  have hdrop2 : List.dropWhile isDigitC (ds2 ++ rest) = rest :=
    dropWhile_append_all hd2 (goodSep_not_digit hrest)
  have htake1b : List.takeWhile isDigitC (c :: (t ++ '.' :: ds2)) = c :: t := by
    simpa using @takeWhile_append_all _ (c :: t) ('.' :: ds2) hd1
      (by rw [peekC_cons]; decide)
  have hdrop1b : List.dropWhile isDigitC (c :: (t ++ '.' :: ds2)) = '.' :: ds2 := by
    simpa using @dropWhile_append_all _ (c :: t) ('.' :: ds2) hd1
      (by rw [peekC_cons]; decide)
  have htake2b : List.takeWhile isDigitC ds2 = ds2 := by
    simpa using @takeWhile_append_all _ ds2 [] hd2 (by decide)
  have hdrop2b : List.dropWhile isDigitC ds2 = [] := by
    simpa using @dropWhile_append_all _ ds2 [] hd2 (by decide)
  rcases hsgn with rfl | rfl
  · simp [loadNumber, peekC_cons, getC, hmc, htake1, hdrop1, htake2, hdrop2,
      goodSep_not_e hrest]
  · simp [loadNumber, peekC_cons, getC, hmc, htake1, hdrop1, htake2, hdrop2,
      goodSep_not_e hrest]

theorem digitsVal_nil : digitsVal [] = 0 := rfl

theorem readDouble_fixed {ds1 ds2 : List Char} {sgn : List Char}
    (hsgn : sgn = [] ∨ sgn = ['-']) (h1 : ds1 ≠ [])
    (hd1 : ∀ c ∈ ds1, isDigitC c = true) (hd2 : ∀ c ∈ ds2, isDigitC c = true) :
    readDoubleFromLexeme (sgn ++ ds1 ++ '.' :: ds2) =
      decValue (if sgn = ['-'] then -(digitsVal (ds1 ++ ds2) : Int)
        else (digitsVal (ds1 ++ ds2) : Int)) (-(ds2.length : Int)) := by
  obtain ⟨c, t, rfl⟩ : ∃ c t, ds1 = c :: t := by
    cases ds1 with
    | nil => exact absurd rfl h1
    | cons c t => exact ⟨c, t, rfl⟩
  have hc : isDigitC c = true := hd1 c (by simp)
  have hmc : ¬(c = '-') := ne_of_digit_of_not hc (by decide)
  have htake1b : List.takeWhile isDigitC (c :: (t ++ '.' :: ds2)) = c :: t := by
    simpa using @takeWhile_append_all _ (c :: t) ('.' :: ds2) hd1
      (by rw [peekC_cons]; decide)
  have hdrop1b : List.dropWhile isDigitC (c :: (t ++ '.' :: ds2)) = '.' :: ds2 := by
    simpa using @dropWhile_append_all _ (c :: t) ('.' :: ds2) hd1
      (by rw [peekC_cons]; decide)
  have htake2b : List.takeWhile isDigitC ds2 = ds2 := by
    simpa using @takeWhile_append_all _ ds2 [] hd2 (by decide)
  have hdrop2b : List.dropWhile isDigitC ds2 = [] := by
    simpa using @dropWhile_append_all _ ds2 [] hd2 (by decide)
  rcases hsgn with rfl | rfl
  · simp [readDoubleFromLexeme, peekC_cons, getC, hmc, htake1b, hdrop1b, htake2b, hdrop2b,
      digitsVal_nil]
  · simp [readDoubleFromLexeme, peekC_cons, getC, hmc, htake1b, hdrop1b, htake2b, hdrop2b,
      digitsVal_nil]

theorem lexMatches_fixed {ds1 ds2 : List Char} {sgn : List Char} {d : ℚ}
    (hsgn : sgn = [] ∨ sgn = ['-']) (h1 : ds1 ≠ [])
    (hd1 : ∀ c ∈ ds1, isDigitC c = true) (hd2 : ∀ c ∈ ds2, isDigitC c = true)
    (h : lexMatchesQ (sgn ++ ds1 ++ '.' :: ds2) d = true) :
    d.num * ((10 : Int) ^ ds2.length) =
      (if sgn = ['-'] then -(digitsVal (ds1 ++ ds2) : Int)
        else (digitsVal (ds1 ++ ds2) : Int)) * (d.den : Int) := by
  obtain ⟨c, t, rfl⟩ : ∃ c t, ds1 = c :: t := by
    cases ds1 with
    | nil => exact absurd rfl h1
    | cons c t => exact ⟨c, t, rfl⟩
  have hc : isDigitC c = true := hd1 c (by simp)
  have hmc : ¬(c = '-') := ne_of_digit_of_not hc (by decide)
  have htake1b : List.takeWhile isDigitC (c :: (t ++ '.' :: ds2)) = c :: t := by
    simpa using @takeWhile_append_all _ (c :: t) ('.' :: ds2) hd1
      (by rw [peekC_cons]; decide)
  have hdrop1b : List.dropWhile isDigitC (c :: (t ++ '.' :: ds2)) = '.' :: ds2 := by
    simpa using @dropWhile_append_all _ (c :: t) ('.' :: ds2) hd1
      (by rw [peekC_cons]; decide)
  have htake2b : List.takeWhile isDigitC ds2 = ds2 := by
    simpa using @takeWhile_append_all _ ds2 [] hd2 (by decide)
  have hdrop2b : List.dropWhile isDigitC ds2 = [] := by
    simpa using @dropWhile_append_all _ ds2 [] hd2 (by decide)
  rcases hsgn with rfl | rfl
  · simp [lexMatchesQ, peekC_cons, getC, hmc, htake1b, hdrop1b, htake2b, hdrop2b] at h
    simpa using h
  · simp [lexMatchesQ, peekC_cons, getC, hmc, htake1b, hdrop1b, htake2b, hdrop2b] at h
    simpa using h

theorem decValue_eq_of_cross {mant : Int} {len : Nat} {d : ℚ}
    (h : d.num * ((10 : Int) ^ len) = mant * (d.den : Int)) :
    decValue mant (-(len : Int)) = d := by
  have hden : ((d.den : ℚ)) ≠ 0 := by
    exact_mod_cast Rat.den_ne_zero d
  have h10 : ((10 : ℚ) ^ len) ≠ 0 := pow_ne_zero _ (by norm_num)
  have key : (d.num : ℚ) * (10 : ℚ) ^ len = (mant : ℚ) * (d.den : ℚ) := by
    exact_mod_cast h
  have hm : (mant : ℚ) = d * (10 : ℚ) ^ len := by
    have hd : d = (d.num : ℚ) / (d.den : ℚ) := (Rat.num_div_den d).symm
    rw [hd]
    field_simp
    linarith [key]
  show (mant : ℚ) * (10 : ℚ) ^ ((-(len : Int)) : ℤ) = d
  rw [zpow_neg, zpow_natCast, hm, mul_assoc, mul_inv_cancel₀ h10, mul_one]

theorem readDouble_goodDouble {d : ℚ} (hg : goodDouble d = true) :
    readDoubleFromLexeme (printedDoubleToken d) = d := by
  have hparts : fixedShape (printedDoubleToken d) = true ∧
      lexMatchesQ (printedDoubleToken d) d = true := by
    simpa [goodDouble] using hg
  obtain ⟨sgn, ds1, ds2, hsgn, heq, h1, hd1, hd2⟩ := fixedShape_unpack hparts.1
  have hm := hparts.2
  rw [heq] at hm ⊢
  rw [readDouble_fixed hsgn h1 hd1 hd2]
  exact decValue_eq_of_cross (lexMatches_fixed hsgn h1 hd1 hd2 hm)

theorem loadNumber_goodDouble {d : ℚ} {rest : List Char} (hg : goodDouble d = true)
    (hrest : goodSep (peekC rest) = true) :
    loadNumber (printedDoubleToken d ++ rest) = (.double d, rest) := by
  have hparts : fixedShape (printedDoubleToken d) = true ∧
      lexMatchesQ (printedDoubleToken d) d = true := by
    simpa [goodDouble] using hg
  obtain ⟨sgn, ds1, ds2, hsgn, heq, h1, hd1, hd2⟩ := fixedShape_unpack hparts.1
  rw [heq, loadNumber_fixedToken hsgn h1 hd1 hd2 hrest, ← heq, readDouble_goodDouble hg]

/-! ## String tokens round trip -/

theorem lstGo_append : ∀ (s acc rest : List Char),
    lstGo (s.flatMap escChar ++ '"' :: rest) false acc = .ok (acc ++ s) rest := by
  intro s
  induction s with
  | nil =>
    intro acc rest
    simp [lstGo]
  | cons c t ih =>
    intro acc rest
    by_cases h1 : c = '\n'
    · subst h1
      simp only [List.flatMap_cons, escChar, List.append_assoc, List.cons_append]
      norm_num [lstGo]
      rw [ih (acc ++ ['\n']) rest]
      simp
    · by_cases h2 : c = '\r'
      · subst h2
        simp only [List.flatMap_cons, escChar, List.append_assoc, List.cons_append]
        norm_num [lstGo]
        rw [ih (acc ++ ['\r']) rest]
        simp
      · by_cases h3 : c = '\t'
        · subst h3
          simp only [List.flatMap_cons, escChar, List.append_assoc, List.cons_append]
          norm_num [lstGo]
          rw [ih (acc ++ ['\t']) rest]
          simp
        · by_cases h4 : c = '"'
          · subst h4
            simp only [List.flatMap_cons, escChar, List.append_assoc, List.cons_append]
            norm_num [lstGo]
            rw [ih (acc ++ ['"']) rest]
            simp
          · by_cases h5 : c = '\\'
            · subst h5
              simp only [List.flatMap_cons, escChar, List.append_assoc, List.cons_append]
              norm_num [lstGo]
              rw [ih (acc ++ ['\\']) rest]
              simp
            · simp only [List.flatMap_cons, escChar, h1, h2, h3, h4, h5, if_false,
                List.append_assoc, List.singleton_append, List.cons_append]
              simp only [lstGo, h4, h5]
              norm_num
              rw [ih (acc ++ [c]) rest]
              simp

theorem loadStringToken_print (s rest : List Char) :
    loadStringToken (s.flatMap escChar ++ '"' :: rest) = .ok s rest := by
  simpa using lstGo_append s [] rest

theorem loadString_print (s rest : List Char) :
    loadString (printString s ++ rest) = .ok (.str s) rest := by
  have : printString s ++ rest = '"' :: (s.flatMap escChar ++ '"' :: rest) := by
    simp [printString]
  rw [this]
  simp [loadString, getC, loadStringToken_print s rest]

/-! ## Literal tokens -/

theorem loadBoolOrNull_token {tok rest : List Char} (halpha : ∀ c ∈ tok, isAlphaC c = true)
    (hrest : goodSep (peekC rest) = true) :
    loadBoolOrNull (tok ++ rest) =
      (if tok = "true".toList then .ok (.bool true) rest
       else if tok = "false".toList then .ok (.bool false) rest
       else if tok = "null".toList then .ok .null rest
       else .err ("Unknown token: " ++ String.mk tok)) := by
  have htake : (tok ++ rest).takeWhile isAlphaC = tok :=
    takeWhile_append_all halpha (goodSep_not_alpha hrest)
  have hdrop : (tok ++ rest).dropWhile isAlphaC = rest :=
    dropWhile_append_all halpha (goodSep_not_alpha hrest)
  simp only [loadBoolOrNull, htake, hdrop]

/-! ## The first character of printed output -/

theorem natChars_head (n : Nat) :
    ∃ c cs, natChars n = c :: cs ∧ isDigitC c = true := by
  cases h : natChars n with
  | nil => exact absurd h (natChars_ne_nil n)
  | cons c cs =>
    refine ⟨c, cs, rfl, ?_⟩
    exact natChars_all_digits n c (by rw [h]; simp)

theorem printNode_head {v : Node} {ind : Nat} (hg : goodNode v = true) :
    ∃ c cs, printNode v ind = c :: cs ∧
      isSpaceC c = false ∧ c ≠ ']' ∧ c ≠ '\x7d' ∧ startChar c = true := by
  cases v with
  | null => exact ⟨'n', _, rfl, by decide, by decide, by decide, by decide⟩
  | bool b =>
    cases b
    · exact ⟨'f', _, rfl, by decide, by decide, by decide, by decide⟩
    · exact ⟨'t', _, rfl, by decide, by decide, by decide, by decide⟩
  | str s => exact ⟨'"', _, rfl, by decide, by decide, by decide, by decide⟩
  | arr l => exact ⟨'[', _, rfl, by decide, by decide, by decide, by decide⟩
  | dict l => exact ⟨'\x7b', _, rfl, by decide, by decide, by decide, by decide⟩
  | int i =>
    show ∃ c cs, intToChars i = c :: cs ∧ _
    by_cases hneg : i < 0
    · refine ⟨'-', natChars (-i).toNat, by simp [intToChars, hneg], by decide, by decide,
        by decide, by decide⟩
    · obtain ⟨c, cs, hc, hd⟩ := natChars_head i.toNat
      refine ⟨c, cs, by simp [intToChars, hneg, hc], isSpaceC_of_digit hd,
        ne_of_digit_of_not hd (by decide), ne_of_digit_of_not hd (by decide), ?_⟩
      simp [startChar, hd]
  | double d =>
    show ∃ c cs, printedDoubleToken d = c :: cs ∧ _
    have hg2 : goodDouble d = true := hg
    have hparts : fixedShape (printedDoubleToken d) = true ∧
        lexMatchesQ (printedDoubleToken d) d = true := by
      simpa [goodDouble] using hg2
    obtain ⟨sgn, ds1, ds2, hsgn, heq, h1, hd1, hd2⟩ := fixedShape_unpack hparts.1
    rcases hsgn with rfl | rfl
    · obtain ⟨c, cs, hc⟩ : ∃ c cs, ds1 = c :: cs := by
        cases ds1 with
        | nil => exact absurd rfl h1
        | cons c cs => exact ⟨c, cs, rfl⟩
      have hd : isDigitC c = true := hd1 c (by rw [hc]; simp)
      refine ⟨c, cs ++ '.' :: ds2, by rw [heq, hc]; simp, isSpaceC_of_digit hd,
        ne_of_digit_of_not hd (by decide), ne_of_digit_of_not hd (by decide), ?_⟩
      simp [startChar, hd]
    · exact ⟨'-', ds1 ++ '.' :: ds2, by rw [heq]; simp, by decide, by decide, by decide,
        by decide⟩

/-! ## The lexicographic key order -/

theorem strLt_irrefl : ∀ s : List Char, strLt s s = false := by
  intro s
  induction s with
  | nil => rfl
  | cons c t ih => simp [strLt, ih]

theorem strLt_cons_iff {x d : Char} {t u : List Char} :
    strLt (x :: t) (d :: u) = true ↔
      (x.toNat < d.toNat ∨ (x.toNat = d.toNat ∧ strLt t u = true)) := by
  simp [strLt]

theorem char_eq_of_toNat_eq {a b : Char} (h : a.toNat = b.toNat) : a = b := by
  have : a.val = b.val := UInt32.toNat.inj h
  exact Char.eq_of_val_eq this

theorem strLt_asymm : ∀ a b : List Char, strLt a b = true → strLt b a = false := by
  intro a
  induction a with
  | nil =>
    intro b h
    cases b with
    | nil => rfl
    | cons d u => rfl
  | cons x t ih =>
    intro b h
    cases b with
    | nil => simp [strLt] at h
    | cons d u =>
      rw [strLt_cons_iff] at h
      rw [← Bool.not_eq_true, strLt_cons_iff]
      intro hcon
      rcases h with h | ⟨he, hl⟩
      · rcases hcon with h2 | ⟨he2, _⟩
        · omega
        · omega
      · rcases hcon with h2 | ⟨he2, hl2⟩
        · omega
        · rw [ih u hl] at hl2
          exact Bool.false_ne_true hl2

theorem strLt_trans : ∀ a b c : List Char, strLt a b = true → strLt b c = true →
    strLt a c = true := by
  intro a
  induction a with
  | nil =>
    intro b c hab hbc
    cases b with
    | nil => exact absurd hab (by simp [strLt])
    | cons d u =>
      cases c with
      | nil => exact absurd hbc (by simp [strLt])
      | cons e w => rfl
  | cons x t ih =>
    intro b c hab hbc
    cases b with
    | nil => exact absurd hab (by simp [strLt])
    | cons d u =>
      cases c with
      | nil => exact absurd hbc (by simp [strLt])
      | cons e w =>
        rw [strLt_cons_iff] at hab hbc ⊢
        rcases hab with h1 | ⟨he1, hl1⟩
        · rcases hbc with h2 | ⟨he2, hl2⟩
          · exact Or.inl (by omega)
          · exact Or.inl (by omega)
        · rcases hbc with h2 | ⟨he2, hl2⟩
          · exact Or.inl (by omega)
          · exact Or.inr ⟨by omega, ih u w hl1 hl2⟩

theorem strLt_connex : ∀ a b : List Char, strLt a b = false → strLt b a = false → a = b := by
  intro a
  induction a with
  | nil =>
    intro b h1 _
    cases b with
    | nil => rfl
    | cons d u => exact absurd h1 (by simp [strLt])
  | cons x t ih =>
    intro b h1 h2
    cases b with
    | nil => exact absurd h2 (by simp [strLt])
    | cons d u =>
      rw [← Bool.not_eq_true, strLt_cons_iff] at h1 h2
      push_neg at h1 h2
      have he : x.toNat = d.toNat := by omega
      have ht : t = u := by
        refine ih u ?_ ?_
        · have := h1.2 he
          exact (Bool.not_eq_true _).mp this
        · have := h2.2 he.symm
          exact (Bool.not_eq_true _).mp this
      rw [char_eq_of_toNat_eq he, ht]

/-! ## Sorted key lists and `emplace` -/

theorem sortedKeysB_tail {a : List Char × Node} {l : List (List Char × Node)}
    (h : sortedKeysB (a :: l) = true) : sortedKeysB l = true := by
  cases l with
  | nil => rfl
  | cons b t =>
    simp only [sortedKeysB, Bool.and_eq_true] at h
    exact h.2

theorem sortedKeysB_head_lt : ∀ {l : List (List Char × Node)} {a : List Char × Node},
    sortedKeysB (a :: l) = true → ∀ e ∈ l, strLt a.1 e.1 = true := by
  intro l
  induction l with
  | nil => intro a _ e he; exact absurd he (List.not_mem_nil e)
  | cons b t ih =>
    intro a h e he
    have hab : strLt a.1 b.1 = true := by
      simp only [sortedKeysB, Bool.and_eq_true] at h
      exact h.1
    rcases List.mem_cons.mp he with rfl | he2
    · exact hab
    · exact strLt_trans _ _ _ hab (ih (sortedKeysB_tail h) e he2)

theorem sortedKeysB_append_left_lt : ∀ {acc : List (List Char × Node)}
    {k : List Char} {v : Node} {t : List (List Char × Node)},
    sortedKeysB (acc ++ (k, v) :: t) = true → ∀ e ∈ acc, strLt e.1 k = true := by
  intro acc
  induction acc with
  | nil => intro k v t _ e he; exact absurd he (List.not_mem_nil e)
  | cons a acc2 ih =>
    intro k v t h e he
    rcases List.mem_cons.mp he with rfl | he2
    · have := sortedKeysB_head_lt (l := acc2 ++ (k, v) :: t) (a := e)
        (by simpa using h) (k, v) (by simp)
      simpa using this
    · exact ih (sortedKeysB_tail (by simpa using h)) e he2

theorem sortedKeysB_append_right : ∀ {acc t : List (List Char × Node)},
    sortedKeysB (acc ++ t) = true → sortedKeysB t = true := by
  intro acc
  induction acc with
  | nil => intro t h; exact h
  | cons a acc2 ih =>
    intro t h
    exact ih (sortedKeysB_tail (by simpa using h))

theorem dictEmplace_append {k : List Char} {v : Node} :
    ∀ {acc : List (List Char × Node)}, (∀ e ∈ acc, strLt e.1 k = true) →
    dictEmplace k v acc = acc ++ [(k, v)] := by
  intro acc
  induction acc with
  | nil => intro _; rfl
  | cons a t ih =>
    intro h
    have hak : strLt a.1 k = true := h a (by simp)
    obtain ⟨k₁, v₁⟩ := a
    simp only [dictEmplace]
    rw [if_neg (by rw [strLt_asymm _ _ hak]; exact Bool.false_ne_true), if_pos hak]
    rw [ih (fun e he => h e (by simp [he]))]
    simp

/-! ## Idempotence of whitespace skipping -/

theorem skipWhitespace_idem (x : List Char) :
    skipWhitespace (skipWhitespace x) = skipWhitespace x := by
  apply skipWhitespace_eq_self
  induction x with
  | nil => decide
  | cons c t ih =>
    by_cases h : isSpaceC c = true
    · simpa [skipWhitespace, List.dropWhile_cons, h] using ih
    · simp only [skipWhitespace, List.dropWhile_cons]
      rw [Bool.not_eq_true] at h
      simp [h, peekC_cons]

theorem loadArrayItems_skipWs (f : Nat) (x : List Char) (acc : List Node) :
    loadArrayItems (f + 1) (skipWhitespace x) acc = loadArrayItems (f + 1) x acc := by
  simp only [loadArrayItems, skipWhitespace_idem]

theorem loadDictItems_skipWs (f : Nat) (x : List Char) (acc : List (List Char × Node)) :
    loadDictItems (f + 1) (skipWhitespace x) acc = loadDictItems (f + 1) x acc := by
  simp only [loadDictItems, skipWhitespace_idem]

/-! ## Member access for the guard predicates -/

theorem goodList_mem : ∀ {l : List Node}, goodList l = true → ∀ v ∈ l, goodNode v = true := by
  intro l
  induction l with
  | nil => intro _ v hv; exact absurd hv (List.not_mem_nil v)
  | cons a t ih =>
    intro h v hv
    simp only [goodList, Bool.and_eq_true] at h
    rcases List.mem_cons.mp hv with rfl | hv2
    · exact h.1
    · exact ih h.2 v hv2

theorem goodEntries_mem : ∀ {l : List (List Char × Node)}, goodEntries l = true →
    ∀ kv ∈ l, goodNode kv.2 = true := by
  intro l
  induction l with
  | nil => intro _ kv hkv; exact absurd hkv (List.not_mem_nil kv)
  | cons a t ih =>
    intro h kv hkv
    obtain ⟨k, v⟩ := a
    simp only [goodEntries, Bool.and_eq_true] at h
    rcases List.mem_cons.mp hkv with rfl | hkv2
    · exact h.1
    · exact ih h.2 kv hkv2

theorem sizeOf_mem_arr {l : List Node} {v : Node} (h : v ∈ l) :
    sizeOf v < sizeOf (Node.arr l) := by
  have := List.sizeOf_lt_of_mem h
  simp only [Node.arr.sizeOf_spec]
  omega

theorem sizeOf_mem_dict {l : List (List Char × Node)} {kv : List Char × Node} (h : kv ∈ l) :
    sizeOf kv.2 < sizeOf (Node.dict l) := by
  have h1 := List.sizeOf_lt_of_mem h
  obtain ⟨k, v⟩ := kv
  have h2 : sizeOf (k, v) = 1 + sizeOf k + sizeOf v := rfl
  simp only [Node.dict.sizeOf_spec]
  simp only [h2] at h1
  have h3 : 0 < sizeOf k := by
    cases k <;> simp
  omega

/-! ## The element loops against their printed forms -/

theorem loadArrayItems_print (N : Nat)
    (IH : ∀ w : Node, sizeOf w < N → ∀ (ind : Nat) (rest : List Char) (f : Nat),
      goodNode w = true → goodSep (peekC rest) = true → fuelNode w ≤ f →
      loadNode f (printNode w ind ++ rest) = .ok w rest) :
    ∀ (l : List Node) (acc : List Node) (ind : Nat) (rest : List Char) (f : Nat), l ≠ [] →
      (∀ w ∈ l, sizeOf w < N) → goodList l = true →
      goodSep (peekC rest) = true → fuelList l ≤ f →
      loadArrayItems f (printArrItems l ind true ++ ('\n' :: spaces ind ++ (']' :: rest))) acc
        = .ok (.arr (acc ++ l)) rest := by
  intro l
  induction l with
  | nil => intro acc ind rest f hne _ _ _ _; exact absurd rfl hne
  | cons v t ihl =>
    intro acc ind rest f _ hsz hgl hrest hf
    simp only [fuelList] at hf
    obtain ⟨f₃, rfl⟩ : ∃ g, f = g + 1 := Nat.exists_eq_succ_of_ne_zero (by omega)
    have hfv : fuelNode v ≤ f₃ := by omega
    have hft : fuelList t ≤ f₃ := by omega
    have hgv : goodNode v = true := by
      simp only [goodList, Bool.and_eq_true] at hgl; exact hgl.1
    have hgt : goodList t = true := by
      simp only [goodList, Bool.and_eq_true] at hgl; exact hgl.2
    obtain ⟨c, cs, hpr, hws, hnb, hnd, hstart⟩ := @printNode_head v (ind + 2) hgv
    have hXX : goodSep
        (peekC (printArrItems t ind false ++ ('\n' :: spaces ind ++ (']' :: rest)))) = true := by
      cases t with
      | nil =>
        simp only [printArrItems, List.nil_append, List.cons_append, peekC_cons]
        decide
      | cons w t2 =>
        simp only [printArrItems, Bool.false_eq_true, if_false, List.cons_append,
          List.singleton_append, peekC_cons]
        decide
    have hstep : skipWhitespace (printArrItems (v :: t) ind true ++
          ('\n' :: spaces ind ++ (']' :: rest))) =
        printNode v (ind + 2) ++
          (printArrItems t ind false ++ ('\n' :: spaces ind ++ (']' :: rest))) := by
      have h1 : printArrItems (v :: t) ind true ++ ('\n' :: spaces ind ++ (']' :: rest)) =
          '\n' :: spaces (ind + 2) ++ (printNode v (ind + 2) ++
            (printArrItems t ind false ++ ('\n' :: spaces ind ++ (']' :: rest)))) := by
        simp [printArrItems]
      rw [h1, skipWhitespace_spaces_append]
      refine skipWhitespace_eq_self ?_
      rw [hpr]
      simpa [peekC_cons] using hws
    simp only [loadArrayItems]
    rw [hstep]
    rw [IH v (hsz v (by simp)) (ind + 2) _ f₃ hgv hXX hfv]
    dsimp only
    cases t with
    | nil =>
      have h2 : skipWhitespace (printArrItems [] ind false ++
          ('\n' :: spaces ind ++ (']' :: rest))) = ']' :: rest := by
        simp only [printArrItems, List.nil_append]
        rw [skipWhitespace_spaces_append]
        refine skipWhitespace_eq_self ?_
        rw [peekC_cons]
        decide
      rw [h2]
      simp [getC]
    | cons w t2 =>
      have h2 : printArrItems (w :: t2) ind false ++ ('\n' :: spaces ind ++ (']' :: rest)) =
          ',' :: (printArrItems (w :: t2) ind true ++ ('\n' :: spaces ind ++ (']' :: rest))) := by
        simp [printArrItems]
      rw [h2]
      have h3 : skipWhitespace (',' :: (printArrItems (w :: t2) ind true ++
          ('\n' :: spaces ind ++ (']' :: rest)))) =
          ',' :: (printArrItems (w :: t2) ind true ++
            ('\n' :: spaces ind ++ (']' :: rest))) := by
        refine skipWhitespace_eq_self ?_
        rw [peekC_cons]
        decide
      rw [h3]
      dsimp only [getC]
      rw [if_neg (by decide), if_pos rfl]
      rw [ihl (acc ++ [v]) ind rest f₃ (by simp)
        (fun w2 hw2 => hsz w2 (by simp [hw2])) hgt hrest hft]
      simp

theorem loadDictItems_print (N : Nat)
    (IH : ∀ w : Node, sizeOf w < N → ∀ (ind : Nat) (rest : List Char) (f : Nat),
      goodNode w = true → goodSep (peekC rest) = true → fuelNode w ≤ f →
      loadNode f (printNode w ind ++ rest) = .ok w rest) :
    ∀ (l : List (List Char × Node)) (acc : List (List Char × Node)) (ind : Nat)
      (rest : List Char) (f : Nat), l ≠ [] →
      (∀ kv ∈ l, sizeOf kv.2 < N) → goodEntries l = true →
      sortedKeysB (acc ++ l) = true →
      goodSep (peekC rest) = true → fuelEntries l ≤ f →
      loadDictItems f (printDictItems l ind true ++ ('\n' :: spaces ind ++ ('\x7d' :: rest))) acc
        = .ok (.dict (acc ++ l)) rest := by
  intro l
  induction l with
  | nil => intro acc ind rest f hne _ _ _ _ _; exact absurd rfl hne
  | cons kv t ihl =>
    obtain ⟨k, v⟩ := kv
    intro acc ind rest f _ hsz hgl hsort hrest hf
    simp only [fuelEntries] at hf
    obtain ⟨f₃, rfl⟩ : ∃ g, f = g + 1 := Nat.exists_eq_succ_of_ne_zero (by omega)
    have hfv : fuelNode v ≤ f₃ := by omega
    have hft : fuelEntries t ≤ f₃ := by omega
    have hgv : goodNode v = true := by
      simp only [goodEntries, Bool.and_eq_true] at hgl; exact hgl.1
    have hgt : goodEntries t = true := by
      simp only [goodEntries, Bool.and_eq_true] at hgl; exact hgl.2
    obtain ⟨c, cs, hpr, hws, hnb, hnd, hstart⟩ := @printNode_head v (ind + 2) hgv
    have hXX : goodSep
        (peekC (printDictItems t ind false ++ ('\n' :: spaces ind ++ ('\x7d' :: rest)))) = true := by
      cases t with
      | nil =>
        simp only [printDictItems, List.nil_append, List.cons_append, peekC_cons]
        decide
      | cons kv2 t2 =>
        obtain ⟨k2, v2⟩ := kv2
        simp only [printDictItems, Bool.false_eq_true, if_false, List.cons_append,
          List.singleton_append, peekC_cons]
        decide
    have hstep : skipWhitespace (printDictItems ((k, v) :: t) ind true ++
          ('\n' :: spaces ind ++ ('\x7d' :: rest))) =
        '"' :: (k.flatMap escChar ++ ('"' :: (':' :: (' ' :: (printNode v (ind + 2) ++
          (printDictItems t ind false ++ ('\n' :: spaces ind ++ ('\x7d' :: rest)))))))) := by
      have h1 : printDictItems ((k, v) :: t) ind true ++ ('\n' :: spaces ind ++ ('\x7d' :: rest)) =
          '\n' :: spaces (ind + 2) ++ ('"' :: (k.flatMap escChar ++ ('"' :: (':' :: (' ' ::
            (printNode v (ind + 2) ++ (printDictItems t ind false ++
              ('\n' :: spaces ind ++ ('\x7d' :: rest))))))))) := by
        simp [printDictItems, printString]
      rw [h1, skipWhitespace_spaces_append]
      refine skipWhitespace_eq_self ?_
      rw [peekC_cons]
      decide
    simp only [loadDictItems]
    rw [hstep]
    dsimp only [getC]
    rw [if_neg (by simp)]
    rw [loadStringToken_print]
    dsimp only
    have h4 : skipWhitespace (':' :: (' ' :: (printNode v (ind + 2) ++
        (printDictItems t ind false ++ ('\n' :: spaces ind ++ ('\x7d' :: rest)))))) =
        ':' :: (' ' :: (printNode v (ind + 2) ++
          (printDictItems t ind false ++ ('\n' :: spaces ind ++ ('\x7d' :: rest))))) := by
      refine skipWhitespace_eq_self ?_
      rw [peekC_cons]
      decide
    rw [h4]
    dsimp only [getC]
    rw [if_neg (by simp)]
    have h5 : skipWhitespace (' ' :: (printNode v (ind + 2) ++
        (printDictItems t ind false ++ ('\n' :: spaces ind ++ ('\x7d' :: rest))))) =
        printNode v (ind + 2) ++
          (printDictItems t ind false ++ ('\n' :: spaces ind ++ ('\x7d' :: rest))) := by
      have : skipWhitespace (' ' :: (printNode v (ind + 2) ++
          (printDictItems t ind false ++ ('\n' :: spaces ind ++ ('\x7d' :: rest))))) =
          skipWhitespace (printNode v (ind + 2) ++
            (printDictItems t ind false ++ ('\n' :: spaces ind ++ ('\x7d' :: rest)))) := by
        simp [skipWhitespace, List.dropWhile_cons, (by decide : isSpaceC ' ' = true)]
      rw [this]
      refine skipWhitespace_eq_self ?_
      rw [hpr]
      simpa [peekC_cons] using hws
    rw [h5]
    rw [IH v (hsz (k, v) (by simp)) (ind + 2) _ f₃ hgv hXX hfv]
    dsimp only
    have hemp : dictEmplace k v acc = acc ++ [(k, v)] :=
      dictEmplace_append (sortedKeysB_append_left_lt hsort)
    rw [hemp]
    cases t with
    | nil =>
      have h6 : skipWhitespace (printDictItems [] ind false ++
          ('\n' :: spaces ind ++ ('\x7d' :: rest))) = '\x7d' :: rest := by
        simp only [printDictItems, List.nil_append]
        rw [skipWhitespace_spaces_append]
        refine skipWhitespace_eq_self ?_
        rw [peekC_cons]
        decide
      rw [h6]
      simp [getC]
    | cons kv2 t2 =>
      obtain ⟨k2, v2⟩ := kv2
      have h6 : printDictItems ((k2, v2) :: t2) ind false ++
          ('\n' :: spaces ind ++ ('\x7d' :: rest)) =
          ',' :: (printDictItems ((k2, v2) :: t2) ind true ++
            ('\n' :: spaces ind ++ ('\x7d' :: rest))) := by
        simp [printDictItems]
      rw [h6]
      have h7 : skipWhitespace (',' :: (printDictItems ((k2, v2) :: t2) ind true ++
          ('\n' :: spaces ind ++ ('\x7d' :: rest)))) =
          ',' :: (printDictItems ((k2, v2) :: t2) ind true ++
            ('\n' :: spaces ind ++ ('\x7d' :: rest))) := by
        refine skipWhitespace_eq_self ?_
        rw [peekC_cons]
        decide
      rw [h7]
      dsimp only [getC]
      rw [if_neg (by decide), if_pos rfl]
      rw [ihl (acc ++ [(k, v)]) ind rest f₃ (by simp)
        (fun kv2 hkv2 => hsz kv2 (by simp [hkv2])) hgt
        (by simpa using hsort) hrest hft]
      simp

/-! ## Character classes and `LoadNode` dispatch -/

theorem isDigitC_toNat {c : Char} (h : isDigitC c = true) :
    48 ≤ c.toNat ∧ c.toNat ≤ 57 := by
  simp only [isDigitC, Bool.and_eq_true, decide_eq_true_eq] at h
  exact ⟨h.1, h.2⟩

theorem isAlphaC_toNat {c : Char} (h : isAlphaC c = true) :
    (97 ≤ c.toNat ∧ c.toNat ≤ 122) ∨ (65 ≤ c.toNat ∧ c.toNat ≤ 90) := by
  simp only [isAlphaC, Bool.or_eq_true, Bool.and_eq_true, decide_eq_true_eq] at h
  rcases h with ⟨h1, h2⟩ | ⟨h1, h2⟩
  · exact Or.inl ⟨h1, h2⟩
  · exact Or.inr ⟨h1, h2⟩

theorem ne_of_alpha_of_not {c d : Char} (h : isAlphaC c = true)
    (hd : isAlphaC d = false) : c ≠ d := by
  intro e; rw [e, hd] at h; exact Bool.false_ne_true h

theorem isSpaceC_of_alpha {c : Char} (h : isAlphaC c = true) : isSpaceC c = false :=
  isSpaceC_eq_false_of
    (ne_of_alpha_of_not h (by decide)) (ne_of_alpha_of_not h (by decide))
    (ne_of_alpha_of_not h (by decide)) (ne_of_alpha_of_not h (by decide))
    (ne_of_alpha_of_not h (by decide)) (ne_of_alpha_of_not h (by decide))

theorem not_digit_of_alpha {c : Char} (h : isAlphaC c = true) : isDigitC c = false := by
  cases hd : isDigitC c with
  | false => rfl
  | true =>
    have h1 := isAlphaC_toNat h
    have h2 := isDigitC_toNat hd
    omega

theorem loadNode_cons_alpha {c : Char} {t : List Char} {f : Nat}
    (hc : isAlphaC c = true) :
    loadNode (f + 1) (c :: t) = loadBoolOrNull (c :: t) := by
  have h1 : ¬(c = '[') := ne_of_alpha_of_not hc (by decide)
  have h2 : ¬(c = '\x7b') := ne_of_alpha_of_not hc (by decide)
  have h3 : ¬(c = '"') := ne_of_alpha_of_not hc (by decide)
  have h4 : ¬(c = '-') := ne_of_alpha_of_not hc (by decide)
  simp only [loadNode]
  rw [skipWhitespace_eq_self (by rw [peekC_cons]; exact isSpaceC_of_alpha hc)]
  simp only [peekC_cons]
  rw [if_neg h1, if_neg h2, if_neg h3,
    if_neg (by simp [not_digit_of_alpha hc, h4]), if_pos hc]

theorem loadNode_cons_num {c : Char} {t : List Char} {f : Nat}
    (hc : isDigitC c = true ∨ c = '-') :
    loadNode (f + 1) (c :: t) =
      .ok (loadNumber (c :: t)).1 (loadNumber (c :: t)).2 := by
  have hsp : isSpaceC c = false := by
    rcases hc with hc | rfl
    · exact isSpaceC_of_digit hc
    · decide
  have h1 : ¬(c = '[') := by
    rcases hc with hc | rfl
    · exact ne_of_digit_of_not hc (by decide)
    · decide
  have h2 : ¬(c = '\x7b') := by
    rcases hc with hc | rfl
    · exact ne_of_digit_of_not hc (by decide)
    · decide
  have h3 : ¬(c = '"') := by
    rcases hc with hc | rfl
    · exact ne_of_digit_of_not hc (by decide)
    · decide
  have h4 : (isDigitC c || decide (c = '-')) = true := by
    rcases hc with hc | rfl
    · simp [hc]
    · simp
  simp only [loadNode]
  rw [skipWhitespace_eq_self (by rw [peekC_cons]; exact hsp)]
  simp only [peekC_cons]
  rw [if_neg h1, if_neg h2, if_neg h3, if_pos h4]

theorem loadNode_cons_quote {t : List Char} {f : Nat} :
    loadNode (f + 1) ('"' :: t) = loadString ('"' :: t) := by
  simp only [loadNode]
  rw [skipWhitespace_eq_self (by rw [peekC_cons]; decide)]
  simp only [peekC_cons]
  simp

theorem loadNode_cons_lbrack {t : List Char} {f : Nat} :
    loadNode (f + 1) ('[' :: t) = loadArray f ('[' :: t) := by
  simp only [loadNode]
  rw [skipWhitespace_eq_self (by rw [peekC_cons]; decide)]
  simp only [peekC_cons]
  simp

theorem loadNode_cons_lbrace {t : List Char} {f : Nat} :
    loadNode (f + 1) ('\x7b' :: t) = loadDict f ('\x7b' :: t) := by
  simp only [loadNode]
  rw [skipWhitespace_eq_self (by rw [peekC_cons]; decide)]
  simp only [peekC_cons]
  simp

/-! ## `LoadNode` on complete scalar tokens -/

theorem loadNode_intToken {i : Int} {rest : List Char} {f : Nat}
    (hlo : -2147483648 ≤ i) (hhi : i ≤ 2147483647) (hrest : goodSep (peekC rest) = true) :
    loadNode (f + 1) (intToChars i ++ rest) = .ok (.int i) rest := by
  by_cases hneg : i < 0
  · have he : intToChars i = '-' :: natChars (-i).toNat := by simp [intToChars, hneg]
    rw [he, List.cons_append, loadNode_cons_num (Or.inr rfl), ← List.cons_append, ← he,
      loadNumber_int hlo hhi hrest]
  · obtain ⟨c, cs, hc, hd⟩ := natChars_head i.toNat
    have he : intToChars i = c :: cs := by simp [intToChars, hneg, hc]
    rw [he, List.cons_append, loadNode_cons_num (Or.inl hd), ← List.cons_append, ← he,
      loadNumber_int hlo hhi hrest]

theorem loadNode_doubleToken {d : ℚ} {rest : List Char} {f : Nat}
    (hg : goodDouble d = true) (hrest : goodSep (peekC rest) = true) :
    loadNode (f + 1) (printedDoubleToken d ++ rest) = .ok (.double d) rest := by
  have hparts : fixedShape (printedDoubleToken d) = true ∧
      lexMatchesQ (printedDoubleToken d) d = true := by
    simpa [goodDouble] using hg
  obtain ⟨sgn, ds1, ds2, hsgn, heq, h1, hd1, hd2⟩ := fixedShape_unpack hparts.1
  obtain ⟨c, cs, hcons⟩ : ∃ c cs, printedDoubleToken d = c :: cs ∧
      (isDigitC c = true ∨ c = '-') := by
    rcases hsgn with rfl | rfl
    · obtain ⟨c, cs2, hc⟩ : ∃ c cs2, ds1 = c :: cs2 := by
        cases ds1 with
        | nil => exact absurd rfl h1
        | cons c cs2 => exact ⟨c, cs2, rfl⟩
      exact ⟨c, cs2 ++ '.' :: ds2, by rw [heq, hc]; simp,
        Or.inl (hd1 c (by rw [hc]; simp))⟩
    · exact ⟨'-', ds1 ++ '.' :: ds2, by rw [heq]; simp, Or.inr rfl⟩
  rw [hcons.1, List.cons_append, loadNode_cons_num hcons.2, ← List.cons_append, ← hcons.1,
    loadNumber_goodDouble hg hrest]

theorem loadNode_stringToken {s rest : List Char} {f : Nat} :
    loadNode (f + 1) (printString s ++ rest) = .ok (.str s) rest := by
  have he : printString s ++ rest = '"' :: (s.flatMap escChar ++ ('"' :: rest)) := by
    simp [printString]
  rw [he, loadNode_cons_quote, ← he, loadString_print]

/-! ## The round trip: parsing printed output -/

theorem loadNode_print_aux : ∀ (N : Nat) (v : Node), sizeOf v < N →
    ∀ (ind : Nat) (rest : List Char) (f : Nat), goodNode v = true →
    goodSep (peekC rest) = true → fuelNode v ≤ f →
    loadNode f (printNode v ind ++ rest) = .ok v rest := by
  intro N
  induction N with
  | zero => intro v h; omega
  | succ N ihN =>
    intro v hsz ind rest f hg hrest hf
    have hf1 : 1 ≤ fuelNode v := by cases v <;> simp only [fuelNode] <;> omega
    obtain ⟨f₁, rfl⟩ : ∃ g, f = g + 1 := Nat.exists_eq_succ_of_ne_zero (by omega)
    cases v with
    | null =>
      have he : printNode Node.null ind ++ rest = 'n' :: ("ull".toList ++ rest) := rfl
      rw [he, loadNode_cons_alpha (by decide), ← he]
      have he2 : printNode Node.null ind ++ rest = "null".toList ++ rest := rfl
      rw [he2, loadBoolOrNull_token (by decide) hrest]
      rw [if_neg (by decide), if_neg (by decide), if_pos rfl]
    | bool b =>
      cases b
      · have he : printNode (Node.bool false) ind ++ rest =
            'f' :: ("alse".toList ++ rest) := rfl
        rw [he, loadNode_cons_alpha (by decide), ← he]
        have he2 : printNode (Node.bool false) ind ++ rest = "false".toList ++ rest := rfl
        rw [he2, loadBoolOrNull_token (by decide) hrest]
        rw [if_neg (by decide), if_pos rfl]
      · have he : printNode (Node.bool true) ind ++ rest =
            't' :: ("rue".toList ++ rest) := rfl
        rw [he, loadNode_cons_alpha (by decide), ← he]
        have he2 : printNode (Node.bool true) ind ++ rest = "true".toList ++ rest := rfl
        rw [he2, loadBoolOrNull_token (by decide) hrest]
        rw [if_pos rfl]
    | int i =>
      have hrange : -2147483648 ≤ i ∧ i ≤ 2147483647 := by
        have : goodNode (Node.int i) = decide (-2147483648 ≤ i ∧ i ≤ 2147483647) := rfl
        rw [this] at hg
        exact of_decide_eq_true hg
      exact loadNode_intToken hrange.1 hrange.2 hrest
    | double d =>
      exact loadNode_doubleToken hg hrest
    | str s =>
      exact loadNode_stringToken
    | arr l =>
      simp only [fuelNode] at hf
      obtain ⟨f₂, rfl⟩ : ∃ g, f₁ = g + 1 := Nat.exists_eq_succ_of_ne_zero (by omega)
      have hgl : goodList l = true := hg
      cases l with
      | nil =>
        have he : printNode (Node.arr []) ind ++ rest = '[' :: (']' :: rest) := by
          simp [printNode, printArrItems]
        rw [he, loadNode_cons_lbrack]
        simp only [loadArray]
        dsimp only [getC]
        rw [if_neg (by simp)]
        rw [skipWhitespace_eq_self (by rw [peekC_cons]; decide)]
        simp [peekC_cons, getC]
      | cons v t =>
        have he : printNode (Node.arr (v :: t)) ind ++ rest =
            '[' :: (printArrItems (v :: t) ind true ++
              ('\n' :: spaces ind ++ (']' :: rest))) := by
          simp [printNode]
        rw [he, loadNode_cons_lbrack]
        simp only [loadArray]
        dsimp only [getC]
        rw [if_neg (by simp)]
        have hgv : goodNode v = true := by
          simp only [goodList, Bool.and_eq_true] at hgl; exact hgl.1
        obtain ⟨c, cs, hpr, hws, hnb, hnd, hstart⟩ :=
          @printNode_head v (ind + 2) hgv
        have hstep : skipWhitespace (printArrItems (v :: t) ind true ++
              ('\n' :: spaces ind ++ (']' :: rest))) =
            printNode v (ind + 2) ++
              (printArrItems t ind false ++ ('\n' :: spaces ind ++ (']' :: rest))) := by
          have h1 : printArrItems (v :: t) ind true ++ ('\n' :: spaces ind ++ (']' :: rest)) =
              '\n' :: spaces (ind + 2) ++ (printNode v (ind + 2) ++
                (printArrItems t ind false ++ ('\n' :: spaces ind ++ (']' :: rest)))) := by
            simp [printArrItems]
          rw [h1, skipWhitespace_spaces_append]
          refine skipWhitespace_eq_self ?_
          rw [hpr]
          simpa [peekC_cons] using hws
        rw [hstep]
        have hpeek : peekC (printNode v (ind + 2) ++
            (printArrItems t ind false ++ ('\n' :: spaces ind ++ (']' :: rest)))) = c := by
          rw [hpr]
          simp [peekC_cons]
        rw [if_neg (by rw [hpeek]; exact hnb)]
        rw [← hstep]
        simp only [fuelList] at hf
        obtain ⟨f₃, rfl⟩ : ∃ g, f₂ = g + 1 := Nat.exists_eq_succ_of_ne_zero (by omega)
        rw [loadArrayItems_skipWs]
        rw [loadArrayItems_print N ihN (v :: t) [] ind rest (f₃ + 1) (by simp)
          (fun w hw => by have := sizeOf_mem_arr hw; omega) hgl hrest
          (by simp only [fuelList]; omega)]
        simp
    | dict l =>
      simp only [fuelNode] at hf
      obtain ⟨f₂, rfl⟩ : ∃ g, f₁ = g + 1 := Nat.exists_eq_succ_of_ne_zero (by omega)
      have hparts : sortedKeysB l = true ∧ goodEntries l = true := by
        have : goodNode (Node.dict l) = (sortedKeysB l && goodEntries l) := rfl
        rw [this] at hg
        simpa using hg
      cases l with
      | nil =>
        have he : printNode (Node.dict []) ind ++ rest = '\x7b' :: ('\x7d' :: rest) := by
          simp [printNode, printDictItems]
        rw [he, loadNode_cons_lbrace]
        simp only [loadDict]
        dsimp only [getC]
        rw [if_neg (by simp)]
        rw [skipWhitespace_eq_self (by rw [peekC_cons]; decide)]
        simp [peekC_cons, getC]
      | cons kv t =>
        obtain ⟨k, v⟩ := kv
        have he : printNode (Node.dict ((k, v) :: t)) ind ++ rest =
            '\x7b' :: (printDictItems ((k, v) :: t) ind true ++
              ('\n' :: spaces ind ++ ('\x7d' :: rest))) := by
          simp [printNode]
        rw [he, loadNode_cons_lbrace]
        simp only [loadDict]
        dsimp only [getC]
        rw [if_neg (by simp)]
        have hstep : skipWhitespace (printDictItems ((k, v) :: t) ind true ++
              ('\n' :: spaces ind ++ ('\x7d' :: rest))) =
            '"' :: (k.flatMap escChar ++ ('"' :: (':' :: (' ' :: (printNode v (ind + 2) ++
              (printDictItems t ind false ++ ('\n' :: spaces ind ++ ('\x7d' :: rest)))))))) := by
          have h1 : printDictItems ((k, v) :: t) ind true ++
              ('\n' :: spaces ind ++ ('\x7d' :: rest)) =
              '\n' :: spaces (ind + 2) ++ ('"' :: (k.flatMap escChar ++ ('"' :: (':' :: (' ' ::
                (printNode v (ind + 2) ++ (printDictItems t ind false ++
                  ('\n' :: spaces ind ++ ('\x7d' :: rest))))))))) := by
            simp [printDictItems, printString]
          rw [h1, skipWhitespace_spaces_append]
          refine skipWhitespace_eq_self ?_
          rw [peekC_cons]
          decide
        rw [hstep]
        rw [if_neg (by rw [peekC_cons]; decide)]
        rw [← hstep]
        obtain ⟨f₃, rfl⟩ : ∃ g, f₂ = g + 1 := by
          refine Nat.exists_eq_succ_of_ne_zero ?_
          simp only [fuelEntries] at hf
          omega
        rw [loadDictItems_skipWs]
        rw [loadDictItems_print N ihN ((k, v) :: t) [] ind rest (f₃ + 1) (by simp)
          (fun kv hkv => by have := sizeOf_mem_dict hkv; omega) hparts.2
          (by simpa using hparts.1) hrest
          (by simp only [fuelEntries] at hf ⊢; omega)]
        simp

/-! ## `operator==` decides deep structural equality -/

mutual

theorem nodeEq_iff : ∀ a b : Node, nodeEq a b = true ↔ a = b
  | .null, .null => by simp [nodeEq]
  | .arr a, .arr b => by simp [nodeEq, arrEq_iff a b]
  | .dict a, .dict b => by simp [nodeEq, dictEq_iff a b]
  | .bool a, .bool b => by simp [nodeEq]
  | .int a, .int b => by simp [nodeEq]
  | .double a, .double b => by simp [nodeEq]
  | .str a, .str b => by simp [nodeEq]
  | .null, .arr _ | .null, .dict _ | .null, .bool _ | .null, .int _
  | .null, .double _ | .null, .str _
  | .arr _, .null | .arr _, .dict _ | .arr _, .bool _ | .arr _, .int _
  | .arr _, .double _ | .arr _, .str _
  | .dict _, .null | .dict _, .arr _ | .dict _, .bool _ | .dict _, .int _
  | .dict _, .double _ | .dict _, .str _
  | .bool _, .null | .bool _, .arr _ | .bool _, .dict _ | .bool _, .int _
  | .bool _, .double _ | .bool _, .str _
  | .int _, .null | .int _, .arr _ | .int _, .dict _ | .int _, .bool _
  | .int _, .double _ | .int _, .str _
  | .double _, .null | .double _, .arr _ | .double _, .dict _ | .double _, .bool _
  | .double _, .int _ | .double _, .str _
  | .str _, .null | .str _, .arr _ | .str _, .dict _ | .str _, .bool _
  | .str _, .int _ | .str _, .double _ => by simp [nodeEq]

theorem arrEq_iff : ∀ a b : List Node, arrEq a b = true ↔ a = b
  | [], [] => by simp [arrEq]
  | x :: xs, y :: ys => by simp [arrEq, nodeEq_iff x y, arrEq_iff xs ys]
  | [], _ :: _ => by simp [arrEq]
  | _ :: _, [] => by simp [arrEq]

theorem dictEq_iff : ∀ a b : List (List Char × Node), dictEq a b = true ↔ a = b
  | [], [] => by simp [dictEq]
  | (k₁, v₁) :: xs, (k₂, v₂) :: ys => by
    simp [dictEq, nodeEq_iff v₁ v₂, dictEq_iff xs ys, and_assoc]
  | [], _ :: _ => by simp [dictEq]
  | _ :: _, [] => by simp [dictEq]

end

/-! ## `emplace` keeps the map sorted, in any insertion order -/

theorem sortedKeysB_iff_pairwise : ∀ l : List (List Char × Node),
    sortedKeysB l = true ↔ l.Pairwise (fun a b => strLt a.1 b.1 = true) := by
  intro l
  induction l with
  | nil => simp [sortedKeysB]
  | cons a t ih =>
    cases t with
    | nil => simp [sortedKeysB]
    | cons b t2 =>
      rw [List.pairwise_cons]
      constructor
      · intro h
        simp only [sortedKeysB, Bool.and_eq_true] at h
        have hp := ih.mp h.2
        refine ⟨?_, hp⟩
        intro e he
        rcases List.mem_cons.mp he with rfl | he2
        · exact h.1
        · rcases List.pairwise_cons.mp hp with ⟨hb, _⟩
          exact strLt_trans _ _ _ h.1 (hb e he2)
      · intro ⟨hall, hp⟩
        simp only [sortedKeysB, Bool.and_eq_true]
        exact ⟨hall b (by simp), ih.mpr hp⟩

theorem dictEmplace_mem {k : List Char} {v : Node} :
    ∀ {d : List (List Char × Node)} {e : List Char × Node},
    e ∈ dictEmplace k v d → e = (k, v) ∨ e ∈ d := by
  intro d
  induction d with
  | nil =>
    intro e he
    simp only [dictEmplace, List.mem_singleton] at he
    exact Or.inl he
  | cons a t ih =>
    intro e he
    obtain ⟨k₁, v₁⟩ := a
    simp only [dictEmplace] at he
    by_cases h1 : strLt k k₁ = true
    · rw [if_pos h1] at he
      rcases List.mem_cons.mp he with rfl | he2
      · exact Or.inl rfl
      · exact Or.inr he2
    · rw [if_neg h1] at he
      by_cases h2 : strLt k₁ k = true
      · rw [if_pos h2] at he
        rcases List.mem_cons.mp he with rfl | he2
        · exact Or.inr (by simp)
        · rcases ih he2 with h | h
          · exact Or.inl h
          · exact Or.inr (by simp [h])
      · rw [if_neg h2] at he
        exact Or.inr he

theorem dictEmplace_pairwise {k : List Char} {v : Node} :
    ∀ {d : List (List Char × Node)},
    d.Pairwise (fun a b => strLt a.1 b.1 = true) →
    (dictEmplace k v d).Pairwise (fun a b => strLt a.1 b.1 = true) := by
  intro d
  induction d with
  | nil => intro _; simp [dictEmplace]
  | cons a t ih =>
    intro h
    obtain ⟨k₁, v₁⟩ := a
    rcases List.pairwise_cons.mp h with ⟨hall, hp⟩
    simp only [dictEmplace]
    by_cases h1 : strLt k k₁ = true
    · rw [if_pos h1]
      rw [List.pairwise_cons]
      refine ⟨?_, h⟩
      intro e he
      rcases List.mem_cons.mp he with rfl | he2
      · exact h1
      · exact strLt_trans _ _ _ h1 (hall e he2)
    · rw [if_neg h1]
      by_cases h2 : strLt k₁ k = true
      · rw [if_pos h2]
        rw [List.pairwise_cons]
        refine ⟨?_, ih hp⟩
        intro e he
        rcases dictEmplace_mem he with rfl | he2
        · exact h2
        · exact hall e he2
      · rw [if_neg h2]
        exact h

theorem buildDict_sorted_from : ∀ (l init : List (List Char × Node)),
    init.Pairwise (fun a b => strLt a.1 b.1 = true) →
    (l.foldl (fun d kv => dictEmplace kv.1 kv.2 d) init).Pairwise
      (fun a b => strLt a.1 b.1 = true) := by
  intro l
  induction l with
  | nil => intro init h; exact h
  | cons a t ih =>
    intro init h
    exact ih _ (dictEmplace_pairwise h)

theorem buildDict_sorted (l : List (List Char × Node)) :
    sortedKeysB (buildDict l) = true := by
  rw [sortedKeysB_iff_pairwise]
  exact buildDict_sorted_from l [] (by simp)

theorem strLt_tri (a b : List Char) :
    strLt a b = true ∨ strLt b a = true ∨ a = b := by
  by_cases h1 : strLt a b = true
  · exact Or.inl h1
  · by_cases h2 : strLt b a = true
    · exact Or.inr (Or.inl h2)
    · exact Or.inr (Or.inr (strLt_connex a b
        ((Bool.not_eq_true _).mp h1) ((Bool.not_eq_true _).mp h2)))

theorem dictEmplace_comm {k₁ k₂ : List Char} {v₁ v₂ : Node} (hne : k₁ ≠ k₂) :
    ∀ (d : List (List Char × Node)),
    dictEmplace k₁ v₁ (dictEmplace k₂ v₂ d) = dictEmplace k₂ v₂ (dictEmplace k₁ v₁ d) := by
  intro d
  induction d with
  | nil =>
    rcases strLt_tri k₁ k₂ with h | h | h
    · simp [dictEmplace, h, strLt_asymm _ _ h]
    · simp [dictEmplace, h, strLt_asymm _ _ h]
    · exact absurd h hne
  | cons a t ih =>
    obtain ⟨k₀, v₀⟩ := a
    rcases strLt_tri k₁ k₂ with h12 | h21 | he
    · rcases strLt_tri k₁ k₀ with h10 | h01 | he10
      · rcases strLt_tri k₂ k₀ with h20 | h02 | he20
        · simp [dictEmplace, h10, h20, h12, strLt_asymm _ _ h12,
            strLt_asymm _ _ h10, strLt_asymm _ _ h20]
        · simp [dictEmplace, h10, h02, h12, strLt_asymm _ _ h12,
            strLt_asymm _ _ h10, strLt_asymm _ _ h02]
        · subst he20
          simp [dictEmplace, h10, h12, strLt_irrefl,
            strLt_asymm _ _ h12, strLt_asymm _ _ h10]
      · have h20 : strLt k₀ k₂ = true := strLt_trans _ _ _ h01 h12
        simp [dictEmplace, h01, h20, strLt_asymm _ _ h01, strLt_asymm _ _ h20, ih]
      · subst he10
        simp [dictEmplace, h12, strLt_irrefl, strLt_asymm _ _ h12]
    · rcases strLt_tri k₂ k₀ with h20 | h02 | he20
      · rcases strLt_tri k₁ k₀ with h10 | h01 | he10
        · simp [dictEmplace, h10, h20, h21, strLt_asymm _ _ h21,
            strLt_asymm _ _ h10, strLt_asymm _ _ h20]
        · simp [dictEmplace, h01, h20, h21, strLt_asymm _ _ h21,
            strLt_asymm _ _ h01, strLt_asymm _ _ h20]
        · subst he10
          simp [dictEmplace, h20, h21, strLt_irrefl,
            strLt_asymm _ _ h21, strLt_asymm _ _ h20]
      · have h10 : strLt k₀ k₁ = true := strLt_trans _ _ _ h02 h21
        simp [dictEmplace, h02, h10, strLt_asymm _ _ h02, strLt_asymm _ _ h10, ih]
      · subst he20
        simp [dictEmplace, h21, strLt_irrefl, strLt_asymm _ _ h21]
    · exact absurd he hne

theorem buildDict_perm_from : ∀ {l₁ l₂ : List (List Char × Node)}, l₁.Perm l₂ →
    (l₁.map Prod.fst).Nodup → ∀ init,
    l₁.foldl (fun d kv => dictEmplace kv.1 kv.2 d) init =
      l₂.foldl (fun d kv => dictEmplace kv.1 kv.2 d) init := by
  intro l₁ l₂ hp
  induction hp with
  | nil => intro _ _; rfl
  | cons x h ih =>
    intro hnd init
    simp only [List.foldl_cons]
    refine ih ?_ _
    rw [List.map_cons] at hnd
    exact (List.nodup_cons.mp hnd).2
  | swap x y l =>
    intro hnd init
    simp only [List.foldl_cons]
    have hxy : y.1 ≠ x.1 := by
      simp only [List.map_cons, List.nodup_cons, List.mem_cons, List.mem_map] at hnd
      intro he
      exact hnd.1 (Or.inl he)
    rw [dictEmplace_comm hxy init]
  | trans h₁ h₂ ih₁ ih₂ =>
    intro hnd init
    rw [ih₁ hnd init]
    refine ih₂ ?_ init
    exact ((h₁.map Prod.fst).nodup_iff).mp hnd

theorem buildDict_perm {l₁ l₂ : List (List Char × Node)} (hp : l₁.Perm l₂)
    (hnd : (l₁.map Prod.fst).Nodup) : buildDict l₁ = buildDict l₂ :=
  buildDict_perm_from hp hnd []

/-! # The claims -/

/-- Claim C1, counterexample: parsing the object text with repeated key a
does NOT yield an entry holding 2 -- `std::map::emplace` keeps the first
insertion, so the entry holds 1. -/
theorem C1_counterexample :
    loadNode 99 ['\x7b', '"', 'a', '"', ':', '1', ',', '"', 'a', '"', ':', '2', '\x7d'] =
      .ok (.dict [(['a'], .int 1)]) [] ∧
    ¬ (loadNode 99 ['\x7b', '"', 'a', '"', ':', '1', ',', '"', 'a', '"', ':', '2', '\x7d'] =
      .ok (.dict [(['a'], .int 2)]) []) := by
  refine ⟨rfl, fun h => ?_⟩
  rw [show loadNode 99 ['\x7b', '"', 'a', '"', ':', '1', ',', '"', 'a', '"', ':', '2', '\x7d'] =
    .ok (.dict [(['a'], .int 1)]) [] from rfl] at h
  simp at h

/-- Claim C1 (amended): parsing an object with a repeated key keeps the
EARLIER value -- the later duplicate is parsed but its insertion is a
no-op, because `std::map::emplace` does not overwrite.  Parsing
`{"a":1,"a":2}` yields an Object with exactly one entry for key a, and
that entry holds the value 1. -/
theorem C1_amended :
    loadNode 99 ['\x7b', '"', 'a', '"', ':', '1', ',', '"', 'a', '"', ':', '2', '\x7d'] =
      .ok (.dict [(['a'], .int 1)]) [] := rfl

/-- Claim C2, counterexample: the programmatically built tree `[1e9]`
contains a double that is integral and below 1e10, and whose printed
lexeme `1e+09` re-parses exactly (no lossy re-parse); yet
`Load(Print(Document(V)))` raises ParsingError, because the printer emits
`1e+09.0` (scientific notation plus the `.0` suffix) and `LoadNumber`
stops before the `.0`, leaving a stray `.` inside the array. -/
theorem C2_counterexample :
    load 20 (printDocument (Document.mk (.arr [.double (mkIntQ 1000000000)]))) =
      .err "Expected ',' or ']' in array" ∧
    (mkIntQ 1000000000).den = 1 ∧
    (mkIntQ 1000000000).num.natAbs < 10000000000 ∧
    readDoubleFromLexeme (formatDouble (mkIntQ 1000000000)) = mkIntQ 1000000000 := by
  refine ⟨rfl, rfl, by decide, ?_⟩
  show readDoubleFromLexeme ['1', 'e', '+', '0', '9'] = mkIntQ 1000000000
  show decValue 1 9 = mkIntQ 1000000000
  rw [decValue]
  norm_num [mkIntQ]

/-- Claim C2 (amended): for every Value tree V built programmatically --
integers in `int` range, object key sequences strictly sorted (the
`std::map` invariant), and every double printing as a fixed-notation
decimal token that re-parses to the same value (the `goodNode` guard) --
`Load(Print(Document(V)))` reconstructs a Value deep-equal to V, with all
of V's doubles reconstructed as Double, not Integer.  Integral doubles
below 1e6 satisfy the guard; integral doubles in `[1e6, 1e10)` do not
(see the counterexample). -/
theorem C2_roundTrip (V : Node) (f : Nat) (hg : goodNode V = true) (hf : fuelNode V ≤ f) :
    load f (printDocument (Document.mk V)) = .ok (Document.mk V) [] := by
  simp only [load, printDocument, Document.getRoot]
  rw [show printNode V 0 = printNode V 0 ++ [] by simp]
  rw [loadNode_print_aux (sizeOf V + 1) V (by omega) 0 [] f hg (by decide) hf]

/-- Witness for C2_roundTrip at a concrete tree containing an Integer, an
integral Double (42.0), an escaped string, null, a bool, and sorted keys. -/
theorem C2_roundTrip_witness :
    goodNode (.dict [(['a'], .arr [.int 5, .double (mkIntQ 42), .str ['x', '\n'], .null]),
      (['b'], .bool true)]) = true ∧
    load (fuelNode (.dict [(['a'], .arr [.int 5, .double (mkIntQ 42), .str ['x', '\n'], .null]),
        (['b'], .bool true)]))
      (printDocument (Document.mk (.dict
        [(['a'], .arr [.int 5, .double (mkIntQ 42), .str ['x', '\n'], .null]),
         (['b'], .bool true)]))) =
      .ok (Document.mk (.dict [(['a'], .arr [.int 5, .double (mkIntQ 42), .str ['x', '\n'], .null]),
        (['b'], .bool true)])) [] :=
  ⟨by decide, C2_roundTrip _ _ (by decide) (le_refl _)⟩

/-- Claim C3: on the unterminated string input `"unterminated` the parser
does NOT raise ParsingError -- `LoadStringToken` reads the EOF sentinel
`(char)EOF = '\xFF'`, which matches no case, is appended to the string
body, and the loop repeats with the stream still exhausted: a genuine
infinite loop.  In the model the computation is `hang` at every fuel, so
it never returns a value and never throws. -/
theorem C3_unterminated_hangs :
    ∀ f : Nat, loadNode f ('"' :: "unterminated".toList) = .hang ∧
      loadStringToken "unterminated".toList = .hang := by
  intro f
  refine ⟨?_, rfl⟩
  cases f with
  | zero => rfl
  | succ g => rfl

/-- Claim C4, counterexample: the bare lexeme `-` is silently accepted as
Integer 0 -- `istringstream >> int` fails and stores 0 (C++11), and
`LoadNumber` never checks the stream state; no ParsingError is raised. -/
theorem C4_counterexample :
    loadNode 9 ['-'] = .ok (.int 0) [] ∧ ∀ m, ¬ (loadNode 9 ['-'] = .err m) := by
  refine ⟨rfl, fun m h => ?_⟩
  rw [show loadNode 9 ['-'] = .ok (.int 0) [] from rfl] at h
  simp at h

/-- Claim C4 (amended): lexemes the numeric conversion routine cannot
convert are silently accepted, not rejected: a bare `-` parses as
Integer 0 (failed extraction stores zero), and `01-` parses as Integer 1
with the trailing `-` left unconsumed; no ParsingError is raised. -/
theorem C4_amended :
    loadNode 9 ['-'] = .ok (.int 0) [] ∧
    loadNode 9 ['0', '1', '-'] = .ok (.int 1) ['-'] :=
  ⟨rfl, rfl⟩

/-- Claim C5: escape fidelity.  Parsing the JSON text `"a\nb\"c"` yields
the String a, newline, b, quote, c; printing that String yields exactly
the original text; and any escaped character other than the five
recognized ones (`n`, `r`, `t`, `"`, `\`) raises ParsingError
("Invalid escape sequence"). -/
theorem C5_escape_fidelity :
    loadNode 9 ['"', 'a', '\\', 'n', 'b', '\\', '"', 'c', '"'] =
      .ok (.str ['a', '\n', 'b', '"', 'c']) [] ∧
    printString ['a', '\n', 'b', '"', 'c'] = ['"', 'a', '\\', 'n', 'b', '\\', '"', 'c', '"'] ∧
    (∀ c : Char, c ∉ (['n', 'r', 't', '"', '\\'] : List Char) →
      ∀ r acc : List Char, lstGo ('\\' :: c :: r) false acc = .err "Invalid escape sequence") := by
  refine ⟨rfl, rfl, fun c hc r acc => ?_⟩
  simp only [List.mem_cons, List.mem_singleton, not_or] at hc
  obtain ⟨h1, h2, h3, h4, h5⟩ := hc
  simp [lstGo, h1, h2, h3, h4, h5]

/-- Witness for C5_escape_fidelity: the escape `\x` is rejected. -/
theorem C5_witness :
    lstGo ['\\', 'x'] false [] = .err "Invalid escape sequence" :=
  C5_escape_fidelity.2.2 'x' (by decide) [] []

/-- Claim C6: `AsDouble()` on an Integer returns the widened
floating-point image of the stored integer; it fails exactly when the
active variant is neither Integer nor Double. -/
theorem C6_asDouble :
    (∀ i : Int, Node.asDouble (.int i) = .ok (mkIntQ i)) ∧
    (∀ n : Node, (n.asDouble.isOk = false) ↔ (n.isInt = false ∧ n.isPureDouble = false)) := by
  refine ⟨fun i => rfl, fun n => ?_⟩
  cases n <;> simp [Node.asDouble, Node.isInt, Node.isPureDouble, Except.isOk, Except.toBool]

/-- Claim C7: `operator==` decides deep structural equality -- two Values
are equal iff their active variants and payloads agree, recursing into
Array/Object children; different variants are never equal, in particular
Integer 1 is not equal to Double 1.0. -/
theorem C7_equality :
    (∀ a b : Node, nodeEq a b = true ↔ a = b) ∧
    (∀ a b : Node, variantTag a ≠ variantTag b → nodeEq a b = false) ∧
    nodeEq (.int 1) (.double (mkIntQ 1)) = false := by
  refine ⟨nodeEq_iff, ?_, by decide⟩
  intro a b htag
  cases heq : nodeEq a b with
  | false => rfl
  | true => exact absurd (congrArg variantTag ((nodeEq_iff a b).mp heq)) htag

/-- Witness for C7_equality: Integer and Boolean variants differ, so the
values compare unequal. -/
theorem C7_witness :
    nodeEq (.int 1) (.bool true) = false :=
  C7_equality.2.1 (.int 1) (.bool true) (by decide)

/-- Claim C8: a `Dict` built by any sequence of emplace insertions stores
its entries in strictly ascending (lexicographic) key order -- the order
`PrintDict` walks -- and the printed output is therefore independent of
the insertion order of distinct keys. -/
theorem C8_printOrder :
    (∀ l : List (List Char × Node), sortedKeysB (buildDict l) = true) ∧
    (∀ l₁ l₂ : List (List Char × Node), l₁.Perm l₂ → (l₁.map Prod.fst).Nodup →
      printDict (buildDict l₁) 0 = printDict (buildDict l₂) 0) ∧
    (∀ (d : List (List Char × Node)) (ind : Nat), printDict d ind = printNode (.dict d) ind) :=
  ⟨buildDict_sorted,
   fun _ _ hp hnd => congrArg (fun d => printDict d 0) (buildDict_perm hp hnd),
   fun _ _ => rfl⟩

/-- Witness for C8_printOrder: inserting b then a prints the same text as
inserting a then b. -/
theorem C8_witness :
    printDict (buildDict [(['b'], .int 1), (['a'], .int 2)]) 0 =
      printDict (buildDict [(['a'], .int 2), (['b'], .int 1)]) 0 :=
  C8_printOrder.2.1 [(['b'], Node.int 1), (['a'], Node.int 2)]
    [(['a'], Node.int 2), (['b'], Node.int 1)]
    (List.Perm.swap (['a'], Node.int 2) (['b'], Node.int 1) []) (by decide)

/-- Claim C9, counterexample: the vertical-tab character `\x0B` is not
among the four characters the claim allows (space, tab, newline, carriage
return), yet the parser skips it as trivia -- `isspace` also accepts
`\v` and `\f` -- and `\x0B1` parses successfully instead of raising
"unexpected character". -/
theorem C9_counterexample :
    loadNode 9 ['\x0B', '1'] = .ok (.int 1) [] ∧
    ('\x0B' ∉ ([' ', '\t', '\n', '\r'] : List Char)) :=
  ⟨rfl, by decide⟩

/-- Claim C9 (amended): before dispatching, the parser skips exactly the
SIX characters C `isspace` accepts -- space, tab, newline, vertical tab,
form feed, carriage return -- and any other non-value-starting character
in dispatch position raises ParsingError ("Unexpected character"). -/
theorem C9_amended :
    (∀ c : Char, isSpaceC c = true ↔
      (c = ' ' ∨ c = '\t' ∨ c = '\n' ∨ c = '\x0B' ∨ c = '\x0C' ∨ c = '\r')) ∧
    (∀ (f : Nat) (c : Char) (s : List Char), isSpaceC c = true →
      loadNode f (c :: s) = loadNode f s) ∧
    (∀ (f : Nat) (c : Char) (s : List Char), isSpaceC c = false → startChar c = false →
      loadNode (f + 1) (c :: s) = .err ("Unexpected character: " ++ String.mk [c])) := by
  refine ⟨?_, ?_, ?_⟩
  · intro c
    simp [isSpaceC]
    tauto
  · intro f c s h
    cases f with
    | zero => rfl
    | succ g =>
      have hs : skipWhitespace (c :: s) = skipWhitespace s := by
        simp [skipWhitespace, List.dropWhile_cons, h]
      simp only [loadNode, hs]
  · intro f c s h1 h2
    simp only [startChar, Bool.or_eq_false_iff, decide_eq_false_iff_not] at h2
    obtain ⟨⟨⟨⟨⟨hb1, hb2⟩, hb3⟩, hd⟩, hm⟩, ha⟩ := h2
    simp only [loadNode]
    rw [skipWhitespace_eq_self (by rw [peekC_cons]; exact h1)]
    simp only [peekC_cons]
    rw [if_neg hb1, if_neg hb2, if_neg hb3, if_neg (by simp [hd, hm]),
      if_neg (by simp [ha])]

/-- Witness for C9_amended: a space is skipped before `1`, and `*` in
dispatch position raises "Unexpected character". -/
theorem C9_witness :
    loadNode 5 (' ' :: ['1']) = loadNode 5 ['1'] ∧
    loadNode 5 ['*'] = .err ("Unexpected character: " ++ String.mk ['*']) :=
  ⟨C9_amended.2.1 5 ' ' ['1'] (by decide), C9_amended.2.2 4 '*' [] (by decide) (by decide)⟩

/-- Claim C10: a default-constructed Node holds the Null variant --
`std::variant` default-constructs its first alternative `nullptr_t` --
so `IsNull()` is true and it is equal (under `operator==`) to a Node
constructed from `nullptr`. -/
theorem C10_default_null :
    nodeDefault.isNull = true ∧ nodeEq nodeDefault nodeOfNullptr = true ∧
      nodeDefault = Node.null :=
  ⟨rfl, rfl, rfl⟩
